import Mathlib

/-!
Verification of the token encoder in src/encode.py.

The program has one pure function, encode_config, plus a command-line
wrapper.  encode_config serializes a JSON-compatible value with
json.dumps(config, indent=4), UTF-8-encodes it, compresses it with
zlib.compress, prepends the 4-byte big-endian length of the uncompressed
bytes (int.to_bytes(4, byteorder=big)), base64-url-safe-encodes the
result and strips trailing padding.

The shallow embedding below models, byte for byte where the claims need
it, the parts of the Python standard library the program calls:

* json.dumps with indent=4 and its default separators and
  ensure_ascii=True escaping (dumpVal below);
* json.loads, i.e. CPython's JSON scanner restricted to the data model
  used here (scanOnce below); numbers are modelled as arbitrary-precision
  integers, which is exact for everything the encoder can print — JSON
  texts with a fractional part or an exponent denote floats and are
  deliberately outside the embedding, so the model parser rejects them;
* str.encode / bytes.decode, i.e. UTF-8 (utf8Encode / utf8Decode);
* base64.urlsafe_b64encode / the corresponding decoder;
* int.to_bytes(4, big), which raises OverflowError - modelled as Option -
  when the integer needs more than 4 bytes;
* zlib.compress / zlib.decompress.  The zlib container format (RFC 1950
  header, DEFLATE body, Adler-32 trailer) is modelled exactly; the
  DEFLATE body itself is modelled with stored (uncompressed) blocks,
  which is a valid DEFLATE stream.  The spec pins the container format
  but explicitly leaves the compressed body library-dependent, so every
  claim below is settled against this model of the compressor.

Python dicts cannot hold duplicate keys, so the JSON-representable
values are those whose objects have pairwise distinct keys (pyWf below).
-/

/-- Whitespace recognised by the JSON scanner: space, tab, newline, carriage return. -/
def isWsC (c : Char) : Bool :=
  decide (c.toNat = 32 ∨ c.toNat = 9 ∨ c.toNat = 10 ∨ c.toNat = 13)

/-- ASCII decimal digit test. -/
def isDigitC (c : Char) : Bool :=
  decide (48 ≤ c.toNat ∧ c.toNat ≤ 57)

/-- Skip JSON whitespace, as the WHITESPACE regex of the json module does. -/
def skipWs : List Char → List Char
  | [] => []
  | c :: r => if isWsC c then skipWs r else c :: r

/-- Greedily split off a run of decimal digits. -/
def scanDigits : List Char → List Char × List Char
  | [] => ([], [])
  | c :: r =>
    if isDigitC c then
      ((scanDigits r).1.cons c, (scanDigits r).2)
    else ([], c :: r)

/-- Value of a digit string, most significant digit first. -/
def digitsValAux : Nat → List Char → Nat
  | acc, [] => acc
  | acc, c :: r => digitsValAux (acc * 10 + (c.toNat - 48)) r

/-- Value of a digit string, most significant digit first. -/
def digitsVal (ds : List Char) : Nat := digitsValAux 0 ds

/-- The ASCII character of a decimal digit. -/
def digitChar (d : Nat) : Char := Char.ofNat (48 + d)

/-- Decimal representation of a natural number, as Python's repr(int) writes it.
The first argument is recursion fuel; fuel n suffices for value n. -/
def natReprAux : Nat → Nat → List Char → List Char
  | 0, _, acc => acc
  | fuel + 1, n, acc =>
    if n = 0 then acc else natReprAux fuel (n / 10) (digitChar (n % 10) :: acc)

/-- Decimal representation of a natural number, as Python's repr(int) writes it. -/
def natRepr (n : Nat) : List Char :=
  if n = 0 then ['0'] else natReprAux n n []

/-- Decimal representation of an integer, as Python's repr(int) writes it. -/
def intRepr (n : Int) : List Char :=
  if n < 0 then '-' :: natRepr n.natAbs else natRepr n.toNat

/-- Lowercase hexadecimal digit character, as the %04x format of json.dumps uses. -/
def hexDigitChar (d : Nat) : Char :=
  if d < 10 then Char.ofNat (48 + d) else Char.ofNat (87 + d)

/-- Four lowercase hex digits of a value below 0x10000. -/
def hex4 (n : Nat) : List Char :=
  [hexDigitChar (n / 4096 % 16), hexDigitChar (n / 256 % 16),
   hexDigitChar (n / 16 % 16), hexDigitChar (n % 16)]

/-- Value of one hexadecimal digit, accepting both cases, as the C JSON scanner does. -/
def hexVal (c : Char) : Option Nat :=
  if 48 ≤ c.toNat ∧ c.toNat ≤ 57 then some (c.toNat - 48)
  else if 97 ≤ c.toNat ∧ c.toNat ≤ 102 then some (c.toNat - 87)
  else if 65 ≤ c.toNat ∧ c.toNat ≤ 70 then some (c.toNat - 55)
  else none

/-- Value of four hexadecimal digits. -/
def hex4Val (a b c d : Char) : Option Nat :=
  match hexVal a, hexVal b, hexVal c, hexVal d with
  | some x, some y, some z, some w => some (4096 * x + 256 * y + 16 * z + w)
  | _, _, _, _ => none

/-- Escape one character the way json.dumps with ensure_ascii=True (the default)
does: short escapes for the two JSON metacharacters and the five control
characters that have them, printable ASCII verbatim, everything else as
one or (above U+FFFF) two \uXXXX escapes. -/
def escapeChar (c : Char) : List Char :=
  if c.toNat = 34 then ['\\', '"']
  else if c.toNat = 92 then ['\\', '\\']
  else if c.toNat = 8 then ['\\', 'b']
  else if c.toNat = 12 then ['\\', 'f']
  else if c.toNat = 10 then ['\\', 'n']
  else if c.toNat = 13 then ['\\', 'r']
  else if c.toNat = 9 then ['\\', 't']
  else if 32 ≤ c.toNat ∧ c.toNat ≤ 126 then [c]
  else if c.toNat < 65536 then '\\' :: 'u' :: hex4 c.toNat
  else
    ('\\' :: 'u' :: hex4 (55296 + (c.toNat - 65536) / 1024)) ++
      ('\\' :: 'u' :: hex4 (56320 + (c.toNat - 65536) % 1024))

/-- Escape a whole string for a JSON string literal. -/
def escapeString : List Char → List Char
  | [] => []
  | c :: r => escapeChar c ++ escapeString r

/-- Newline followed by the indentation of the given nesting level
(indent=4, so four spaces per level). -/
def nlIndent (lvl : Nat) : List Char := '\n' :: List.replicate (4 * lvl) ' '

mutual
/-- The JSON-like data model of the program: the input of encode_config is
any value json.dumps accepts.  Numbers are modelled as integers; see the
header comment. -/
inductive JVal where
  | null : JVal
  | bool (b : Bool) : JVal
  | int (n : Int) : JVal
  | str (s : List Char) : JVal
  | arr (xs : JList) : JVal
  | obj (kvs : JObj) : JVal
/-- A list of JSON values (a Python list). -/
inductive JList where
  | nil : JList
  | cons (x : JVal) (xs : JList) : JList
/-- An ordered association list of string keys and JSON values (a Python dict,
in insertion order). -/
inductive JObj where
  | nil : JObj
  | cons (k : List Char) (v : JVal) (kvs : JObj) : JObj
end

mutual
/-- Serialization of a value by json.dumps(config, indent=4): containers open
with a newline-indent at level lvl+1, separate items with a comma followed by
a newline-indent at level lvl+1, and close with a newline-indent at level lvl;
empty containers print without any whitespace; dict entries print the key as a
JSON string followed by a colon and one space. -/
def dumpVal : Nat → JVal → List Char
  | _, .null => ("null".toList)
  | _, .bool true => ("true".toList)
  | _, .bool false => ("false".toList)
  | _, .int n => intRepr n
  | _, .str s => '"' :: (escapeString s ++ ['"'])
  | _, .arr .nil => ['[', ']']
  | lvl, .arr (.cons x xs) =>
    '[' :: (nlIndent (lvl + 1) ++ (dumpItems (lvl + 1) (.cons x xs) ++ (nlIndent lvl ++ [']'])))
  | _, .obj .nil => ['\x7b', '\x7d']
  | lvl, .obj (.cons k v es) =>
    '\x7b' :: (nlIndent (lvl + 1) ++ (dumpEntries (lvl + 1) (.cons k v es) ++ (nlIndent lvl ++ ['\x7d'])))

/-- Items of a nonempty list, joined by the item separator of json.dumps. -/
def dumpItems : Nat → JList → List Char
  | _, .nil => []
  | lvl, .cons x .nil => dumpVal lvl x
  | lvl, .cons x (.cons y ys) =>
    dumpVal lvl x ++ (',' :: (nlIndent lvl ++ dumpItems lvl (.cons y ys)))

/-- Entries of a nonempty dict, joined by the item separator of json.dumps. -/
def dumpEntries : Nat → JObj → List Char
  | _, .nil => []
  | lvl, .cons k v .nil =>
    '"' :: (escapeString k ++ ('"' :: (':' :: (' ' :: dumpVal lvl v))))
  | lvl, .cons k v (.cons k2 w es) =>
    ('"' :: (escapeString k ++ ('"' :: (':' :: (' ' :: dumpVal lvl v))))) ++
      (',' :: (nlIndent lvl ++ dumpEntries lvl (.cons k2 w es)))
end

/-- CanonicalText of the spec: json.dumps(config, indent=4) starting at
nesting level 0. -/
def dumps (config : JVal) : List Char := dumpVal 0 config

/-- Membership test for a key in a list of keys. -/
def keyListMem (k : List Char) : List (List Char) → Bool
  | [] => false
  | k2 :: r => decide (k = k2) || keyListMem k r

/-- Pairwise distinctness of keys. -/
def nodupKeys : List (List Char) → Bool
  | [] => true
  | k :: r => !keyListMem k r && nodupKeys r

/-- The keys of a dict, in order. -/
def objKeys : JObj → List (List Char)
  | .nil => []
  | .cons k _ kvs => k :: objKeys kvs

mutual
/-- A value is representable as a Python object exactly when every dict in it
has pairwise distinct keys (a Python dict cannot hold a key twice). -/
def pyWf : JVal → Bool
  | .null => true
  | .bool _ => true
  | .int _ => true
  | .str _ => true
  | .arr xs => pyWfList xs
  | .obj kvs => nodupKeys (objKeys kvs) && pyWfObj kvs

/-- pyWf on every element of a list. -/
def pyWfList : JList → Bool
  | .nil => true
  | .cons x xs => pyWf x && pyWfList xs

/-- pyWf on every value of a dict. -/
def pyWfObj : JObj → Bool
  | .nil => true
  | .cons _ v kvs => pyWf v && pyWfObj kvs
end

/-- Insert one key/value pair with Python dict semantics: an existing key keeps
its position and gets the new value, a new key is appended. -/
def objSet : JObj → List Char → JVal → JObj
  | .nil, k, v => .cons k v .nil
  | .cons k2 v2 r, k, v =>
    if k2 = k then .cons k2 v r else .cons k2 v2 (objSet r k v)

/-- Left fold of objSet over a pair list, starting from an accumulator. -/
def dictAdd : JObj → JObj → JObj
  | acc, .nil => acc
  | acc, .cons k v r => dictAdd (objSet acc k v) r

/-- The dict built by dict(pairs), as the JSON object hook of json.loads does. -/
def dictOfPairs (ps : JObj) : JObj := dictAdd .nil ps

/-- Concatenation of dicts as pair lists. -/
def objApp : JObj → JObj → JObj
  | .nil, q => q
  | .cons k v r, q => .cons k v (objApp r q)

/-- Prepend a character to the string component of a string-parse result. -/
def consFst (c : Char) : Option (List Char × List Char) → Option (List Char × List Char)
  | none => none
  | some (s, r) => some (c :: s, r)

/-- One lexical unit of the body of a JSON string literal, as CPython's
scanstring reads it in strict mode: the closing quote (reported as none),
one of the eight short backslash escapes, a \uXXXX escape (a high/low
surrogate escape pair combines into one character), or one literal
character; an unescaped control character is an error.  Lean characters
cannot hold lone surrogates, so the model rejects the escape sequences that
would denote one; json.dumps never writes those. -/
def scanChunk : List Char → Option (Option Char × List Char)
  | [] => none
  | c :: r =>
    if c.toNat = 34 then some (none, r)
    else if c.toNat = 92 then
      match r with
      | [] => none
      | e :: r2 =>
        if e.toNat = 34 then some (some '"', r2)
        else if e.toNat = 92 then some (some '\\', r2)
        else if e.toNat = 47 then some (some '/', r2)
        else if e.toNat = 98 then some (some (Char.ofNat 8), r2)
        else if e.toNat = 102 then some (some (Char.ofNat 12), r2)
        else if e.toNat = 110 then some (some (Char.ofNat 10), r2)
        else if e.toNat = 114 then some (some (Char.ofNat 13), r2)
        else if e.toNat = 116 then some (some (Char.ofNat 9), r2)
        else if e.toNat = 117 then
          match r2 with
          | h1 :: h2 :: h3 :: h4 :: r3 =>
            match hex4Val h1 h2 h3 h4 with
            | none => none
            | some hi =>
              if 55296 ≤ hi ∧ hi ≤ 56319 then
                match r3 with
                | b1 :: b2 :: g1 :: g2 :: g3 :: g4 :: r4 =>
                  if b1.toNat = 92 ∧ b2.toNat = 117 then
                    match hex4Val g1 g2 g3 g4 with
                    | none => none
                    | some lo =>
                      if 56320 ≤ lo ∧ lo ≤ 57343 then
                        some (some (Char.ofNat (65536 + ((hi - 55296) * 1024 + (lo - 56320)))), r4)
                      else none
                  else none
                | _ => none
              else if 56320 ≤ hi ∧ hi ≤ 57343 then none
              else some (some (Char.ofNat hi), r3)
          | _ => none
        else none
    else if c.toNat < 32 then none
    else some (some c, r)

/-- Scan the body of a JSON string literal (the opening quote already
consumed) chunk by chunk until the closing quote.  The fuel only bounds the
number of chunks; every chunk consumes at least one character, so one unit
per character of the remaining input suffices. -/
def parseStringLoop : Nat → List Char → Option (List Char × List Char)
  | 0, _ => none
  | fuel + 1, s =>
    match scanChunk s with
    | none => none
    | some (none, r) => some ([], r)
    | some (some ch, r) => consFst ch (parseStringLoop fuel r)

/-- Scan the body of a JSON string literal (the opening quote already
consumed), as CPython's scanstring does in strict mode. -/
def parseStringBody (s : List Char) : Option (List Char × List Char) :=
  parseStringLoop (s.length + 1) s

/-- Integer part of the JSON number regex: either a single 0, or a nonzero
digit followed by any digits. -/
def parseUIntPart : List Char → Option (Nat × List Char)
  | [] => none
  | c :: r =>
    if c.toNat = 48 then some (0, r)
    else if isDigitC c then
      some (digitsVal ((scanDigits r).1.cons c), (scanDigits r).2)
    else none

/-- After an e or E: does an exponent ([+-]?digits) follow? -/
def expDigitsAhead : List Char → Bool
  | [] => false
  | c :: r =>
    if c.toNat = 43 ∨ c.toNat = 45 then
      match r with
      | [] => false
      | d :: _ => isDigitC d
    else isDigitC c

/-- Does a fractional part (a dot followed by a digit) follow? -/
def fracAhead : List Char → Bool
  | c :: d :: _ => decide (c.toNat = 46) && isDigitC d
  | _ => false

/-- Finish a number match whose integer part has value n: if an exponent
follows, the JSON number is a float, which the embedding does not model
(json.dumps of the modelled values never writes one); otherwise the number
is the integer n. -/
def expOrInt (n : Int) (rest : List Char) : Option (JVal × List Char) :=
  match rest with
  | [] => some (.int n, [])
  | c :: r =>
    if (c.toNat = 101 ∨ c.toNat = 69) ∧ expDigitsAhead r then none
    else some (.int n, c :: r)

/-- Match the JSON number regex at the head of the input.  A fractional part
makes the number a float, which the embedding does not model; see expOrInt. -/
def parseNumber (s : List Char) : Option (JVal × List Char) :=
  match s with
  | [] => none
  | c :: r =>
    if c.toNat = 45 then
      match parseUIntPart r with
      | some (m, rest) => if fracAhead rest then none else expOrInt (-(m : Int)) rest
      | none => none
    else
      match parseUIntPart (c :: r) with
      | some (m, rest) => if fracAhead rest then none else expOrInt (m : Int) rest
      | none => none

/-- Consume an expected literal word, returning the rest. -/
def dropLit : List Char → List Char → Option (List Char)
  | [], s => some s
  | _ :: _, [] => none
  | c :: cs, d :: ds => if c = d then dropLit cs ds else none

mutual
/-- CPython's scan_once: dispatch on the first character to a string, object,
array, keyword or number parse.  The fuel argument bounds the nesting depth
of the recursion; every recursive call is made with one unit less, and loads
below passes enough fuel for any input it can be given.  NaN and Infinity are
floats, which the embedding does not model, so they fall through to the
number regex and fail as they should as far as the printed sublanguage goes. -/
def scanOnce : Nat → List Char → Option (JVal × List Char)
  | 0, _ => none
  | fuel + 1, s =>
    match s with
    | [] => none
    | c :: r =>
      if c.toNat = 34 then
        match parseStringBody r with
        | some (cs, rest) => some (.str cs, rest)
        | none => none
      else if c.toNat = 123 then
        match skipWs r with
        | [] => none
        | d :: t =>
          if d.toNat = 125 then some (.obj .nil, t)
          else if d.toNat = 34 then
            match objLoop fuel t with
            | some (kvs, rest) => some (.obj (dictOfPairs kvs), rest)
            | none => none
          else none
      else if c.toNat = 91 then
        match skipWs r with
        | [] => none
        | d :: t =>
          if d.toNat = 93 then some (.arr .nil, t)
          else
            match arrLoop fuel (d :: t) with
            | some (xs, rest) => some (.arr xs, rest)
            | none => none
      else
        match dropLit ("null".toList) s with
        | some rest => some (.null, rest)
        | none =>
          match dropLit ("true".toList) s with
          | some rest => some (.bool true, rest)
          | none =>
            match dropLit ("false".toList) s with
            | some rest => some (.bool false, rest)
            | none => parseNumber s

/-- The element loop of CPython's JSONArray, positioned at the first
character of an element: scan a value, skip whitespace, then a closing
bracket ends the array and a comma continues it after more whitespace. -/
def arrLoop : Nat → List Char → Option (JList × List Char)
  | 0, _ => none
  | fuel + 1, s =>
    match scanOnce fuel s with
    | none => none
    | some (v, s1) =>
      match skipWs s1 with
      | [] => none
      | d :: r =>
        if d.toNat = 93 then some (.cons v .nil, r)
        else if d.toNat = 44 then
          match arrLoop fuel (skipWs r) with
          | none => none
          | some (vs, rest) => some (.cons v vs, rest)
        else none

/-- The entry loop of CPython's JSONObject, positioned just after the opening
quote of a key: scan the key string, expect a colon after whitespace, scan the
value after whitespace, then a closing brace ends the object and a comma
continues it at the quote of the next key. -/
def objLoop : Nat → List Char → Option (JObj × List Char)
  | 0, _ => none
  | fuel + 1, s =>
    match parseStringBody s with
    | none => none
    | some (k, s1) =>
      match skipWs s1 with
      | [] => none
      | c :: s2 =>
        if c.toNat = 58 then
          match scanOnce fuel (skipWs s2) with
          | none => none
          | some (v, s3) =>
            match skipWs s3 with
            | [] => none
            | d :: s4 =>
              if d.toNat = 125 then some (.cons k v .nil, s4)
              else if d.toNat = 44 then
                match skipWs s4 with
                | [] => none
                | e :: s5 =>
                  if e.toNat = 34 then
                    match objLoop fuel s5 with
                    | none => none
                    | some (kvs, rest) => some (.cons k v kvs, rest)
                  else none
              else none
        else none
end

/-- json.loads: skip leading whitespace, scan one value, skip trailing
whitespace and require the end of the input.  The scanner fuel is one more
than the input length; scanning consumes at least one character per nesting
level, so this never runs out. -/
def loads (s : List Char) : Option JVal :=
  match scanOnce (s.length + 1) (skipWs s) with
  | none => none
  | some (v, rest) => if skipWs rest = [] then some v else none

/-- UTF-8 bytes of one scalar value. -/
def utf8EncodeChar (c : Char) : List Nat :=
  if c.toNat < 128 then [c.toNat]
  else if c.toNat < 2048 then [192 + c.toNat / 64, 128 + c.toNat % 64]
  else if c.toNat < 65536 then
    [224 + c.toNat / 4096, 128 + c.toNat / 64 % 64, 128 + c.toNat % 64]
  else
    [240 + c.toNat / 262144, 128 + c.toNat / 4096 % 64,
     128 + c.toNat / 64 % 64, 128 + c.toNat % 64]

/-- UTF-8 encoding of a string, as str.encode() produces it. -/
def utf8Encode : List Char → List Nat
  | [] => []
  | c :: r => utf8EncodeChar c ++ utf8Encode r

/-- Prepend a character to an optional string. -/
def consCh (c : Char) : Option (List Char) → Option (List Char)
  | none => none
  | some s => some (c :: s)

/-- One character of strict UTF-8, as bytes.decode() reads it: continuation
bytes must carry the 10 prefix, and overlong forms, surrogates and values
past U+10FFFF are rejected. -/
def utf8Chunk : List Nat → Option (Char × List Nat)
  | [] => none
  | b :: r =>
    if b < 128 then some (Char.ofNat b, r)
    else if b < 192 then none
    else if b < 224 then
      match r with
      | [] => none
      | b1 :: r1 =>
        if 128 ≤ b1 ∧ b1 < 192 then
          if 128 ≤ (b - 192) * 64 + (b1 - 128) then
            some (Char.ofNat ((b - 192) * 64 + (b1 - 128)), r1)
          else none
        else none
    else if b < 240 then
      match r with
      | b1 :: b2 :: r2 =>
        if (128 ≤ b1 ∧ b1 < 192) ∧ (128 ≤ b2 ∧ b2 < 192) then
          if 2048 ≤ (b - 224) * 4096 + (b1 - 128) * 64 + (b2 - 128) ∧
              ¬(55296 ≤ (b - 224) * 4096 + (b1 - 128) * 64 + (b2 - 128) ∧
                (b - 224) * 4096 + (b1 - 128) * 64 + (b2 - 128) ≤ 57343) then
            some (Char.ofNat ((b - 224) * 4096 + (b1 - 128) * 64 + (b2 - 128)), r2)
          else none
        else none
      | _ => none
    else if b < 248 then
      match r with
      | b1 :: b2 :: b3 :: r3 =>
        if (128 ≤ b1 ∧ b1 < 192) ∧ (128 ≤ b2 ∧ b2 < 192) ∧ (128 ≤ b3 ∧ b3 < 192) then
          if 65536 ≤ (b - 240) * 262144 + (b1 - 128) * 4096 + (b2 - 128) * 64 + (b3 - 128) ∧
              (b - 240) * 262144 + (b1 - 128) * 4096 + (b2 - 128) * 64 + (b3 - 128) < 1114112 then
            some (Char.ofNat ((b - 240) * 262144 + (b1 - 128) * 4096 + (b2 - 128) * 64 +
              (b3 - 128)), r3)
          else none
        else none
      | _ => none
    else none

/-- Decode UTF-8 character by character.  The fuel only bounds the number of
characters; every character takes at least one byte, so one unit per byte of
the remaining input suffices. -/
def utf8DecodeLoop : Nat → List Nat → Option (List Char)
  | 0, _ => none
  | _ + 1, [] => some []
  | fuel + 1, b :: r =>
    match utf8Chunk (b :: r) with
    | none => none
    | some (ch, rest) => consCh ch (utf8DecodeLoop fuel rest)

/-- Strict UTF-8 decoding, as bytes.decode() performs it. -/
def utf8Decode (s : List Nat) : Option (List Char) :=
  utf8DecodeLoop (s.length + 1) s

/-- The URL-safe base64 alphabet, with - and _ in place of + and /. -/
def b64Chars : List Char :=
  ("ABCDEFGHIJKLMNOPQRSTUVWXYZabcdefghijklmnopqrstuvwxyz0123456789-_".toList)

/-- Character of a six-bit group. -/
def b64Char (n : Nat) : Char := b64Chars.getD n 'A'

/-- base64.urlsafe_b64encode: three input bytes become four alphabet
characters; a final group of one or two bytes is completed with = padding. -/
def b64Encode : List Nat → List Char
  | [] => []
  | [a] => [b64Char (a / 4), b64Char (a % 4 * 16), '=', '=']
  | [a, b] => [b64Char (a / 4), b64Char (a % 4 * 16 + b / 16), b64Char (b % 16 * 4), '=']
  | a :: b :: c :: r =>
    b64Char (a / 4) :: b64Char (a % 4 * 16 + b / 16) ::
      b64Char (b % 16 * 4 + c / 64) :: b64Char (c % 64) :: b64Encode r

/-- Index of a character in the URL-safe alphabet. -/
def b64IndexAux : Nat → List Char → Char → Option Nat
  | _, [], _ => none
  | i, a :: r, c => if a = c then some i else b64IndexAux (i + 1) r c

/-- Index of a character in the URL-safe alphabet. -/
def b64Index (c : Char) : Option Nat := b64IndexAux 0 b64Chars c

/-- URL-safe base64 decoding of a correctly padded input (length a multiple
of four, = only completing the last group). -/
def b64Decode : List Char → Option (List Nat)
  | [] => some []
  | c1 :: c2 :: c3 :: c4 :: rest =>
    match b64Index c1, b64Index c2 with
    | some n1, some n2 =>
      if c3 = '=' then
        if c4 = '=' ∧ rest = [] then some [n1 * 4 + n2 / 16] else none
      else
        match b64Index c3 with
        | some n3 =>
          if c4 = '=' then
            if rest = [] then some [n1 * 4 + n2 / 16, n2 % 16 * 16 + n3 / 4] else none
          else
            match b64Index c4 with
            | some n4 =>
              match b64Decode rest with
              | some bs => some ((n1 * 4 + n2 / 16) :: (n2 % 16 * 16 + n3 / 4) :: (n3 % 4 * 64 + n4) :: bs)
              | none => none
            | none => none
        | none => none
    | _, _ => none
  | _ => none

/-- Remove every trailing = character, as str.rstrip("=") does. -/
def rstripEq (l : List Char) : List Char :=
  (l.reverse.dropWhile (fun c => decide (c = '='))).reverse

/-- Restore the = padding a stripped base64 string needs to have a length
that is a multiple of four. -/
def restorePad (t : List Char) : List Char :=
  t ++ List.replicate ((4 - t.length % 4) % 4) '='

/-- Four big-endian base-256 digits of a value below 2^32. -/
def be32 (n : Nat) : List Nat :=
  [n / 16777216 % 256, n / 65536 % 256, n / 256 % 256, n % 256]

/-- int.to_bytes(4, byteorder=big): the four big-endian bytes of the value,
or an OverflowError - modelled as none - if it does not fit in four bytes. -/
def toBytesBE4 (n : Nat) : Option (List Nat) :=
  if n < 4294967296 then some (be32 n) else none

/-- Big-endian value of a byte string. -/
def beValAux : Nat → List Nat → Nat
  | acc, [] => acc
  | acc, b :: r => beValAux (acc * 256 + b) r

/-- Big-endian value of a byte string. -/
def beVal (bs : List Nat) : Nat := beValAux 0 bs

/-- The two running sums of the Adler-32 checksum. -/
def adlerAux : Nat → Nat → List Nat → Nat × Nat
  | a, b, [] => (a, b)
  | a, b, x :: r => adlerAux ((a + x) % 65521) ((b + a + x) % 65521) r

/-- The Adler-32 checksum of a byte string (RFC 1950). -/
def adler32 (data : List Nat) : Nat :=
  (adlerAux 1 0 data).2 * 65536 + (adlerAux 1 0 data).1

/-- Two little-endian base-256 digits. -/
def le16 (n : Nat) : List Nat := [n % 256, n / 256 % 256]

/-- A DEFLATE stream made of stored (uncompressed) blocks: each block is a
header byte (BFINAL in bit 0, BTYPE=00), LEN and its ones' complement NLEN
as 16-bit little-endian values, then LEN raw bytes; at most 65535 bytes fit
in one block.  The first argument is recursion fuel; data.length suffices. -/
def deflateChunks : Nat → List Nat → List Nat
  | 0, _ => []
  | fuel + 1, data =>
    if data.length ≤ 65535 then
      1 :: (le16 data.length ++ (le16 (65535 - data.length) ++ data))
    else
      0 :: (le16 65535 ++ (le16 0 ++ (data.take 65535 ++ deflateChunks fuel (data.drop 65535))))

/-- A DEFLATE stream made of stored blocks holding the given bytes. -/
def deflateStored (data : List Nat) : List Nat := deflateChunks (data.length + 1) data

/-- Model of zlib.compress: the RFC 1950 container - CMF/FLG header bytes
0x78 0x9c, a DEFLATE body, and the big-endian Adler-32 of the input as
trailer.  The body is modelled with stored blocks; see the header comment. -/
def zlibCompress (data : List Nat) : List Nat :=
  120 :: 156 :: (deflateStored data ++ be32 (adler32 data))

/-- Read a sequence of stored DEFLATE blocks up to and including the final
one, returning the data and the remaining input.  The first argument is
recursion fuel; one unit is spent per non-final block. -/
def inflateBlocks : Nat → List Nat → Option (List Nat × List Nat)
  | 0, _ => none
  | fuel + 1, s =>
    match s with
    | bfin :: l0 :: l1 :: n0 :: n1 :: r =>
      if n0 + 256 * n1 = 65535 - (l0 + 256 * l1) then
        if l0 + 256 * l1 ≤ r.length then
          if bfin = 1 then some (r.take (l0 + 256 * l1), r.drop (l0 + 256 * l1))
          else if bfin = 0 then
            match inflateBlocks fuel (r.drop (l0 + 256 * l1)) with
            | some (d2, rest) => some (r.take (l0 + 256 * l1) ++ d2, rest)
            | none => none
          else none
        else none
      else none
    | _ => none

/-- Model of zlib.decompress on the streams the model compressor can produce:
check the RFC 1950 header (method 8, window size at most 7, header checksum,
no preset dictionary), inflate the stored blocks, and require the big-endian
Adler-32 of the output as the exact remainder. -/
def zlibDecompress (s : List Nat) : Option (List Nat) :=
  match s with
  | cmf :: flg :: r =>
    if cmf % 16 = 8 ∧ cmf / 16 ≤ 7 ∧ (cmf * 256 + flg) % 31 = 0 ∧ flg / 32 % 2 = 0 then
      match inflateBlocks (s.length + 1) r with
      | some (data, rest) => if rest = be32 (adler32 data) then some data else none
      | none => none
    else none
  | _ => none

/-- The body of encode_config in src/encode.py, line by line:
json_str = json.dumps(config, indent=4).encode();
compressed_data = zlib.compress(json_str);
original_data_len = len(json_str);
header = original_data_len.to_bytes(4, byteorder=big) - an OverflowError
propagates as none;
return base64.urlsafe_b64encode(header + compressed_data).decode().rstrip("="). -/
def encode_config (config : JVal) : Option (List Char) :=
  match toBytesBE4 (utf8Encode (dumps config)).length with
  | some header => some (rstripEq (b64Encode (header ++ zlibCompress (utf8Encode (dumps config)))))
  | none => none

/-- The UTF-8 bytes of CanonicalText, as the spec names them. -/
def canonicalTextBytes (config : JVal) : List Nat := utf8Encode (dumps config)

/-- Modelled from the spec: the Token formula of section 6,
strip_padding(base64_urlsafe_encode(BE32(len(bytes)) concat DEFLATE(bytes))),
where DEFLATE produces the zlib container - header, compressed body,
trailer - not a raw deflate stream. -/
def tokenFormula (config : JVal) : List Char :=
  rstripEq (b64Encode (be32 (canonicalTextBytes config).length ++
    (120 :: 156 :: (deflateStored (canonicalTextBytes config) ++
      be32 (adler32 (canonicalTextBytes config))))))

/-- The inverse pipeline of the round-trip claim: restore = padding,
base64-decode, drop the first four bytes, zlib-decompress the rest, and
parse the UTF-8 text as JSON. -/
def decodePipeline (t : List Char) : Option JVal :=
  match b64Decode (restorePad t) with
  | none => none
  | some bytes =>
    match zlibDecompress (bytes.drop 4) with
    | none => none
    | some data =>
      match utf8Decode data with
      | none => none
      | some text => loads text

/-- What a process run leaves observable: the lines printed to standard
output, and the exit code. -/
structure CliResult where
  out : List (List Char)
  exitCode : Nat
deriving DecidableEq

/-- The usage line the wrapper prints when the argument is missing. -/
def usageMsg : List Char :=
  ("Usage: python3 encode.py ".toList) ++ (Char.ofNat 39 :: ("<json_string>".toList)) ++ [Char.ofNat 39]

/-- The fixed message printed when the argument is not valid JSON. -/
def invalidMsg : List Char := ("Invalid JSON string.".toList)

/-- The module entry point of src/encode.py: with fewer than two entries in
sys.argv, print the usage line and exit with code 1; otherwise parse
sys.argv[1] as JSON - on a JSONDecodeError print the fixed message and fall
off the end of the script (exit code 0) - and on success print the token of
encode_config and exit 0.  An OverflowError from encode_config is not caught:
the interpreter prints a traceback to standard error and exits with code 1. -/
def pyMain (argv : List (List Char)) : CliResult :=
  if argv.length < 2 then ⟨[usageMsg], 1⟩
  else
    match loads (argv.getD 1 []) with
    | some config =>
      match encode_config config with
      | some tok => ⟨[tok], 0⟩
      | none => ⟨[], 1⟩
    | none => ⟨[invalidMsg], 0⟩

/-- Number of elements of a JList. -/
def jlistLen : JList → Nat
  | .nil => 0
  | .cons _ xs => jlistLen xs + 1

/-- Number of entries of a JObj. -/
def jobjLen : JObj → Nat
  | .nil => 0
  | .cons _ _ kvs => jobjLen kvs + 1

/-- The characters that can follow a serialized value inside a serialized
document: a comma, a newline, a closing bracket, a closing brace, or the end
of the input.  None of them can extend a number match. -/
def followOk : List Char → Prop
  | [] => True
  | c :: _ => c.toNat = 44 ∨ c.toNat = 10 ∨ c.toNat = 93 ∨ c.toNat = 125

/-- Scanner fuel needed by the element loop of an array: two units per element
beyond the length of its serialization. -/
def sumFList : Nat → JList → Nat
  | _, .nil => 0
  | ilvl, .cons x xs => (dumpVal ilvl x).length + 2 + sumFList ilvl xs

/-- Scanner fuel needed by the entry loop of an object: two units per entry
beyond the length of the serialized value. -/
def sumFObj : Nat → JObj → Nat
  | _, .nil => 0
  | ilvl, .cons _ v kvs => (dumpVal ilvl v).length + 2 + sumFObj ilvl kvs

/-- The serialization of a nonempty run of dict entries without the opening
quote of its first key: what the entry loop of the object scanner sees. -/
def objTail : Nat → JObj → List Char
  | _, .nil => []
  | ilvl, .cons k v .nil => escapeString k ++ ('"' :: (':' :: (' ' :: dumpVal ilvl v)))
  | ilvl, .cons k v (.cons k2 w es) =>
    (escapeString k ++ ('"' :: (':' :: (' ' :: dumpVal ilvl v)))) ++
      (',' :: (nlIndent ilvl ++ ('"' :: objTail ilvl (.cons k2 w es))))

/-- Every character is in the URL-safe base64 alphabet and none is =. -/
def urlSafeTok (t : List Char) : Bool :=
  t.all (fun c => decide (c ∈ b64Chars ∧ c ≠ '='))

/-- A value whose canonical serialization exceeds 2^32 - 1 bytes: a string of
2^32 letters a. -/
def hugeVal : JVal := .str (List.replicate 4294967296 'a')

/-- The head of the input, if any, is not a digit. -/
def headNotDigit : List Char → Prop
  | [] => True
  | c :: _ => isDigitC c = false

/-! ### Character helpers -/

/-- Every scalar value is below 0x110000. -/
theorem charToNatLT (c : Char) : c.toNat < 1114112 := by
  rcases c.valid with h | h
  · exact Nat.lt_trans h (by norm_num)
  · exact h.2

/-- A scalar value is never a surrogate. -/
theorem charValidRanges (c : Char) : c.toNat < 55296 ∨ (57343 < c.toNat ∧ c.toNat < 1114112) := by
  rcases c.valid with h | h
  · exact Or.inl h
  · exact Or.inr h

/-- Char.ofNat is a left inverse of Char.toNat. -/
theorem charOfNatToNat (c : Char) : Char.ofNat c.toNat = c := by
  have hv : c.toNat.isValidChar := c.valid
  unfold Char.ofNat
  rw [dif_pos hv]
  cases c with
  | mk val valid =>
    simp only [Char.ofNatAux]
    congr 1

/-- Char.toNat is a left inverse of Char.ofNat on valid scalar values. -/
theorem toNatOfNat (n : Nat) (hv : n.isValidChar) : (Char.ofNat n).toNat = n := by
  unfold Char.ofNat
  rw [dif_pos hv]
  simp [Char.ofNatAux, Char.toNat, UInt32.toNat, BitVec.ofNatLt]

/-- Char.toNat on values below the surrogate range. -/
theorem toNatOfNatLT (n : Nat) (hv : n < 55296) : (Char.ofNat n).toNat = n :=
  toNatOfNat n (Or.inl hv)

/-- Characters with equal scalar values are equal. -/
theorem charEqOfToNat (a b : Char) (h : a.toNat = b.toNat) : a = b := by
  have h2 : Char.ofNat a.toNat = Char.ofNat b.toNat := by rw [h]
  rwa [charOfNatToNat, charOfNatToNat] at h2

/-! ### Spine induction for the mutual value types -/

/-- Induction along the spine of a JList (its elements are untouched). -/
theorem jlistInduction (motive : JList → Prop) (hnil : motive .nil)
    (hcons : ∀ x xs, motive xs → motive (.cons x xs)) : ∀ xs, motive xs := by
  have key : ∀ n xs, jlistLen xs ≤ n → motive xs := by
    intro n
    induction n with
    | zero =>
      intro xs h
      cases xs with
      | nil => exact hnil
      | cons x ys => simp [jlistLen] at h
    | succ n ih =>
      intro xs h
      cases xs with
      | nil => exact hnil
      | cons x ys =>
        refine hcons x ys (ih ys ?_)
        simp only [jlistLen] at h
        omega
  exact fun xs => key (jlistLen xs) xs (Nat.le_refl _)

/-- Induction along the spine of a JObj (its values are untouched). -/
theorem jobjInduction (motive : JObj → Prop) (hnil : motive .nil)
    (hcons : ∀ k v kvs, motive kvs → motive (.cons k v kvs)) : ∀ kvs, motive kvs := by
  have key : ∀ n kvs, jobjLen kvs ≤ n → motive kvs := by
    intro n
    induction n with
    | zero =>
      intro kvs h
      cases kvs with
      | nil => exact hnil
      | cons k v r => simp [jobjLen] at h
    | succ n ih =>
      intro kvs h
      cases kvs with
      | nil => exact hnil
      | cons k v r =>
        refine hcons k v r (ih r ?_)
        simp only [jobjLen] at h
        omega
  exact fun kvs => key (jobjLen kvs) kvs (Nat.le_refl _)

/-! ### Decimal representation -/

/-- Scalar value of a digit character. -/
theorem digitChar_toNat (d : Nat) (h : d < 10) : (digitChar d).toNat = 48 + d := by
  unfold digitChar
  exact toNatOfNatLT _ (by omega)

/-- Digit characters satisfy isDigitC. -/
theorem digitChar_isDigit (d : Nat) (h : d < 10) : isDigitC (digitChar d) = true := by
  simp only [isDigitC, decide_eq_true_eq, digitChar_toNat d h]
  omega

/-- Exhausted or zero inputs leave the accumulator unchanged. -/
theorem natReprAux_zero (fuel : Nat) (acc : List Char) : natReprAux fuel 0 acc = acc := by
  cases fuel with
  | zero => rfl
  | succ f => simp [natReprAux]

/-- The fuel does not matter as long as it is at least the value. -/
theorem natReprAux_irrel : ∀ n f1 f2 acc, n ≤ f1 → n ≤ f2 →
    natReprAux f1 n acc = natReprAux f2 n acc := by
  intro n
  induction n using Nat.strong_induction_on with
  | _ n ih =>
    intro f1 f2 acc h1 h2
    cases Nat.eq_zero_or_pos n with
    | inl h0 =>
      subst h0
      rw [natReprAux_zero, natReprAux_zero]
    | inr hpos =>
      cases f1 with
      | zero => omega
      | succ a =>
        cases f2 with
        | zero => omega
        | succ b =>
          simp only [natReprAux, if_neg (by omega : ¬ n = 0)]
          exact ih (n / 10) (by omega) a b _ (by omega) (by omega)

/-- The accumulator is a suffix of the result. -/
theorem natReprAux_append : ∀ n fuel acc, n ≤ fuel →
    natReprAux fuel n acc = natReprAux fuel n [] ++ acc := by
  intro n
  induction n using Nat.strong_induction_on with
  | _ n ih =>
    intro fuel acc h
    cases Nat.eq_zero_or_pos n with
    | inl h0 =>
      subst h0
      rw [natReprAux_zero, natReprAux_zero]
      simp
    | inr hpos =>
      cases fuel with
      | zero => omega
      | succ f =>
        simp only [natReprAux, if_neg (by omega : ¬ n = 0)]
        have hd : n / 10 ≤ f := by omega
        rw [ih (n / 10) (by omega) f (digitChar (n % 10) :: acc) hd,
          ih (n / 10) (by omega) f [digitChar (n % 10)] hd]
        simp

/-- Value fold over an append. -/
theorem digitsValAux_append : ∀ xs ys a,
    digitsValAux a (xs ++ ys) = digitsValAux (digitsValAux a xs) ys := by
  intro xs
  induction xs with
  | nil => intro ys a; rfl
  | cons c r ih => intro ys a; exact ih ys (a * 10 + (c.toNat - 48))

/-- Reading back the digit string of n gives n. -/
theorem natReprAux_val : ∀ n fuel, n ≤ fuel → digitsVal (natReprAux fuel n []) = n := by
  intro n
  induction n using Nat.strong_induction_on with
  | _ n ih =>
    intro fuel h
    cases Nat.eq_zero_or_pos n with
    | inl h0 => subst h0; rw [natReprAux_zero]; rfl
    | inr hpos =>
      cases fuel with
      | zero => omega
      | succ f =>
        simp only [natReprAux, if_neg (by omega : ¬ n = 0)]
        rw [natReprAux_append (n / 10) f [digitChar (n % 10)] (by omega)]
        unfold digitsVal
        rw [digitsValAux_append]
        have hv : digitsValAux 0 (natReprAux f (n / 10) []) = n / 10 :=
          ih (n / 10) (by omega) f (by omega)
        rw [hv]
        show (n / 10) * 10 + ((digitChar (n % 10)).toNat - 48) = n
        rw [digitChar_toNat (n % 10) (by omega)]
        omega

/-- Every character of the digit string is a digit. -/
theorem natReprAux_digits : ∀ n fuel, n ≤ fuel →
    ∀ c ∈ natReprAux fuel n [], isDigitC c = true := by
  intro n
  induction n using Nat.strong_induction_on with
  | _ n ih =>
    intro fuel h c hc
    cases Nat.eq_zero_or_pos n with
    | inl h0 => subst h0; rw [natReprAux_zero] at hc; simp at hc
    | inr hpos =>
      cases fuel with
      | zero => omega
      | succ f =>
        simp only [natReprAux, if_neg (by omega : ¬ n = 0)] at hc
        rw [natReprAux_append (n / 10) f [digitChar (n % 10)] (by omega)] at hc
        rcases List.mem_append.mp hc with hm | hm
        · exact ih (n / 10) (by omega) f (by omega) c hm
        · rcases List.mem_singleton.mp hm with rfl
          exact digitChar_isDigit (n % 10) (by omega)

/-- For positive n the digit string starts with a nonzero digit. -/
theorem natReprAux_head : ∀ n fuel, 0 < n → n ≤ fuel →
    ∃ c cs, natReprAux fuel n [] = c :: cs ∧ isDigitC c = true ∧ c.toNat ≠ 48 := by
  intro n
  induction n using Nat.strong_induction_on with
  | _ n ih =>
    intro fuel hpos h
    cases fuel with
    | zero => omega
    | succ f =>
      simp only [natReprAux, if_neg (by omega : ¬ n = 0)]
      cases Nat.eq_zero_or_pos (n / 10) with
      | inl h0 =>
        rw [h0, natReprAux_zero]
        refine ⟨digitChar (n % 10), [], rfl, digitChar_isDigit _ (by omega), ?_⟩
        rw [digitChar_toNat _ (by omega)]
        omega
      | inr hpos2 =>
        rw [natReprAux_append (n / 10) f [digitChar (n % 10)] (by omega)]
        obtain ⟨c, cs, heq, hdig, hne⟩ := ih (n / 10) (by omega) f hpos2 (by omega)
        exact ⟨c, cs ++ [digitChar (n % 10)], by rw [heq]; simp, hdig, hne⟩

/-- Reading back the decimal representation of n gives n. -/
theorem natRepr_val (n : Nat) : digitsVal (natRepr n) = n := by
  unfold natRepr
  by_cases h : n = 0
  · subst h; rw [if_pos rfl]; rfl
  · rw [if_neg h]; exact natReprAux_val n n (Nat.le_refl n)

/-- Every character of the decimal representation is a digit. -/
theorem natRepr_digits (n : Nat) : ∀ c ∈ natRepr n, isDigitC c = true := by
  unfold natRepr
  by_cases h : n = 0
  · subst h
    rw [if_pos rfl]
    intro c hc
    rcases List.mem_singleton.mp hc with rfl
    rfl
  · rw [if_neg h]; exact natReprAux_digits n n (Nat.le_refl n)

/-- For positive n the decimal representation starts with a nonzero digit. -/
theorem natRepr_headPos (n : Nat) (h : 0 < n) :
    ∃ c cs, natRepr n = c :: cs ∧ isDigitC c = true ∧ c.toNat ≠ 48 := by
  unfold natRepr
  rw [if_neg (by omega : ¬ n = 0)]
  exact natReprAux_head n n h (Nat.le_refl n)

/-- The decimal representation always starts with a digit. -/
theorem natRepr_head (n : Nat) :
    ∃ c cs, natRepr n = c :: cs ∧ isDigitC c = true := by
  by_cases h : n = 0
  · subst h; exact ⟨'0', [], rfl, rfl⟩
  · obtain ⟨c, cs, heq, hd, _⟩ := natRepr_headPos n (by omega)
    exact ⟨c, cs, heq, hd⟩

/-! ### Number parsing -/

/-- scanDigits consumes exactly a digit prefix when what follows is not a digit. -/
theorem scanDigits_append : ∀ ds rest, (∀ c ∈ ds, isDigitC c = true) →
    headNotDigit rest → scanDigits (ds ++ rest) = (ds, rest) := by
  intro ds
  induction ds with
  | nil =>
    intro rest h1 h2
    cases rest with
    | nil => rfl
    | cons c r =>
      simp only [headNotDigit] at h2
      simp only [List.nil_append, scanDigits, h2]
      simp
  | cons d ds2 ih =>
    intro rest h1 h2
    have hd : isDigitC d = true := h1 d (by simp)
    simp only [List.cons_append, scanDigits, hd, if_pos, List.append_eq]
    rw [ih rest (fun c hc => h1 c (by simp [hc])) h2]

/-- After a value in a serialized document no digit follows. -/
theorem followOk_not_digit (rest : List Char) (h : followOk rest) : headNotDigit rest := by
  cases rest with
  | nil => trivial
  | cons c r =>
    simp only [followOk] at h
    simp only [headNotDigit, isDigitC, decide_eq_false_iff_not]
    omega

/-- After a value in a serialized document no fractional part follows. -/
theorem fracAhead_followOk (rest : List Char) (h : followOk rest) : fracAhead rest = false := by
  cases rest with
  | nil => rfl
  | cons c r =>
    cases r with
    | nil => rfl
    | cons d r2 =>
      simp only [followOk] at h
      simp only [fracAhead, Bool.and_eq_false_iff, decide_eq_false_iff_not]
      left
      omega

/-- After a value in a serialized document no exponent follows. -/
theorem expOrInt_followOk (n : Int) (rest : List Char) (h : followOk rest) :
    expOrInt n rest = some (.int n, rest) := by
  cases rest with
  | nil => rfl
  | cons c r =>
    simp only [followOk] at h
    simp only [expOrInt]
    rw [if_neg]
    rintro ⟨h1, -⟩
    omega

/-- The integer-part match reads back exactly the decimal representation. -/
theorem parseUIntPart_natRepr (n : Nat) (rest : List Char)
    (hrest : headNotDigit rest) :
    parseUIntPart (natRepr n ++ rest) = some (n, rest) := by
  by_cases h0 : n = 0
  · subst h0; rfl
  · obtain ⟨c, cs, heq, hdig, hne⟩ := natRepr_headPos n (by omega)
    have hcs : ∀ x ∈ cs, isDigitC x = true := by
      intro x hx
      exact natRepr_digits n x (by rw [heq]; simp [hx])
    rw [heq]
    simp only [List.cons_append, parseUIntPart]
    rw [if_neg hne, if_pos hdig]
    rw [scanDigits_append cs rest hcs hrest]
    have hval : digitsVal (List.cons c cs) = n := by rw [← heq]; exact natRepr_val n
    simp only [hval]

/-- The number match reads back exactly the decimal representation of an
integer when what follows cannot extend the match. -/
theorem parseNumber_intRepr (n : Int) (rest : List Char) (h : followOk rest) :
    parseNumber (intRepr n ++ rest) = some (.int n, rest) := by
  have hrest := followOk_not_digit rest h
  by_cases hneg : n < 0
  · unfold intRepr
    rw [if_pos hneg]
    simp only [List.cons_append, parseNumber]
    rw [if_pos (show Char.toNat '-' = 45 from rfl)]
    rw [parseUIntPart_natRepr n.natAbs rest hrest]
    show (if fracAhead rest = true then none
      else expOrInt (-((n.natAbs : Nat) : Int)) rest) = some (JVal.int n, rest)
    rw [fracAhead_followOk rest h]
    simp only [Bool.false_eq_true, if_false]
    rw [expOrInt_followOk _ rest h]
    have hn : -((n.natAbs : Nat) : Int) = n := by omega
    rw [hn]
  · unfold intRepr
    rw [if_neg hneg]
    obtain ⟨c, cs, heq, hdig⟩ := natRepr_head n.toNat
    have hdignat : 48 ≤ c.toNat ∧ c.toNat ≤ 57 := by
      simpa [isDigitC] using hdig
    rw [heq]
    simp only [List.cons_append, parseNumber]
    rw [if_neg (by omega : ¬ c.toNat = 45)]
    have hback : (c :: (cs ++ rest)) = natRepr n.toNat ++ rest := by rw [heq]; simp
    rw [hback, parseUIntPart_natRepr n.toNat rest hrest]
    show (if fracAhead rest = true then none
      else expOrInt (((n.toNat : Nat) : Int)) rest) = some (JVal.int n, rest)
    rw [fracAhead_followOk rest h]
    simp only [Bool.false_eq_true, if_false]
    rw [expOrInt_followOk _ rest h]
    have hn : ((n.toNat : Nat) : Int) = n := by omega
    rw [hn]

/-! ### String literals -/

/-- hexVal inverts hexDigitChar on one digit. -/
theorem hexVal_hexDigitChar : ∀ d, d < 16 → hexVal (hexDigitChar d) = some d := by decide

/-- hex4Val inverts the four digits of hex4. -/
theorem hex4Val_hex4 (n : Nat) (h : n < 65536) :
    hex4Val (hexDigitChar (n / 4096 % 16)) (hexDigitChar (n / 256 % 16))
      (hexDigitChar (n / 16 % 16)) (hexDigitChar (n % 16)) = some n := by
  unfold hex4Val
  rw [hexVal_hexDigitChar _ (by omega), hexVal_hexDigitChar _ (by omega),
    hexVal_hexDigitChar _ (by omega), hexVal_hexDigitChar _ (by omega)]
  show some (4096 * (n / 4096 % 16) + 256 * (n / 256 % 16) + 16 * (n / 16 % 16) + n % 16) = some n
  congr 1
  omega


/-- Step of the chunk scanner at a unicode escape with four more characters. -/
theorem scanChunk_u (e1 e2 e3 e4 : Char) (y : List Char) :
    scanChunk ('\\' :: 'u' :: e1 :: e2 :: e3 :: e4 :: y) =
      (match hex4Val e1 e2 e3 e4 with
       | none => none
       | some hi =>
         if 55296 ≤ hi ∧ hi ≤ 56319 then
           (match y with
            | b1 :: b2 :: g1 :: g2 :: g3 :: g4 :: r4 =>
              if b1.toNat = 92 ∧ b2.toNat = 117 then
                match hex4Val g1 g2 g3 g4 with
                | none => none
                | some lo =>
                  if 56320 ≤ lo ∧ lo ≤ 57343 then
                    some (some (Char.ofNat (65536 + ((hi - 55296) * 1024 + (lo - 56320)))), r4)
                  else none
              else none
            | _ => none)
         else if 56320 ≤ hi ∧ hi ≤ 57343 then none
         else some (some (Char.ofNat hi), y)) := rfl

/-- Step of the chunk scanner at a literal character. -/
theorem scanChunk_lit (c : Char) (y : List Char) (h1 : ¬ c.toNat = 34) (h2 : ¬ c.toNat = 92)
    (h3 : ¬ c.toNat < 32) :
    scanChunk (c :: y) = some (some c, y) := by
  show (if c.toNat = 34 then some (none, y)
    else if c.toNat = 92 then
      (match y with
       | [] => none
       | e :: r2 =>
         if e.toNat = 34 then some (some '"', r2)
         else if e.toNat = 92 then some (some '\\', r2)
         else if e.toNat = 47 then some (some '/', r2)
         else if e.toNat = 98 then some (some (Char.ofNat 8), r2)
         else if e.toNat = 102 then some (some (Char.ofNat 12), r2)
         else if e.toNat = 110 then some (some (Char.ofNat 10), r2)
         else if e.toNat = 114 then some (some (Char.ofNat 13), r2)
         else if e.toNat = 116 then some (some (Char.ofNat 9), r2)
         else if e.toNat = 117 then
           (match r2 with
            | h1 :: h2 :: h3 :: h4 :: r3 =>
              match hex4Val h1 h2 h3 h4 with
              | none => none
              | some hi =>
                if 55296 ≤ hi ∧ hi ≤ 56319 then
                  (match r3 with
                   | b1 :: b2 :: g1 :: g2 :: g3 :: g4 :: r4 =>
                     if b1.toNat = 92 ∧ b2.toNat = 117 then
                       match hex4Val g1 g2 g3 g4 with
                       | none => none
                       | some lo =>
                         if 56320 ≤ lo ∧ lo ≤ 57343 then
                           some (some (Char.ofNat (65536 + ((hi - 55296) * 1024 + (lo - 56320)))), r4)
                         else none
                     else none
                   | _ => none)
                else if 56320 ≤ hi ∧ hi ≤ 57343 then none
                else some (some (Char.ofNat hi), r3)
            | _ => none)
         else none)
    else if c.toNat < 32 then none
    else some (some c, y)) = some (some c, y)
  rw [if_neg h1, if_neg h2, if_neg h3]

/-- The chunk scanner reads back exactly one escaped character. -/
theorem scanChunk_escape (c : Char) (y : List Char) :
    scanChunk (escapeChar c ++ y) = some (some c, y) := by
  by_cases h34 : c.toNat = 34
  · have hc : c = '"' := charEqOfToNat c '"' (by rw [h34]; rfl)
    subst hc
    rfl
  · by_cases h92 : c.toNat = 92
    · have hc : c = '\\' := charEqOfToNat c '\\' (by rw [h92]; rfl)
      subst hc
      rfl
    · by_cases h8 : c.toNat = 8
      · have hc : c = Char.ofNat 8 := charEqOfToNat _ _ (by rw [h8, toNatOfNatLT 8 (by omega)])
        subst hc
        rfl
      · by_cases h12 : c.toNat = 12
        · have hc : c = Char.ofNat 12 := charEqOfToNat _ _ (by rw [h12, toNatOfNatLT 12 (by omega)])
          subst hc
          rfl
        · by_cases h10 : c.toNat = 10
          · have hc : c = Char.ofNat 10 :=
              charEqOfToNat _ _ (by rw [h10, toNatOfNatLT 10 (by omega)])
            subst hc
            rfl
          · by_cases h13 : c.toNat = 13
            · have hc : c = Char.ofNat 13 :=
                charEqOfToNat _ _ (by rw [h13, toNatOfNatLT 13 (by omega)])
              subst hc
              rfl
            · by_cases h9 : c.toNat = 9
              · have hc : c = Char.ofNat 9 :=
                  charEqOfToNat _ _ (by rw [h9, toNatOfNatLT 9 (by omega)])
                subst hc
                rfl
              · by_cases hprint : 32 ≤ c.toNat ∧ c.toNat ≤ 126
                · rw [show escapeChar c = [c] from by
                    simp only [escapeChar]
                    rw [if_neg h34, if_neg h92, if_neg h8, if_neg h12, if_neg h10, if_neg h13,
                      if_neg h9, if_pos hprint]]
                  exact scanChunk_lit c y h34 h92 (by omega)
                · by_cases hbmp : c.toNat < 65536
                  · have hval := charValidRanges c
                    rw [show escapeChar c = '\\' :: 'u' :: hex4 c.toNat from by
                      simp only [escapeChar]
                      rw [if_neg h34, if_neg h92, if_neg h8, if_neg h12, if_neg h10, if_neg h13,
                        if_neg h9, if_neg hprint, if_pos hbmp]]
                    simp only [hex4, List.cons_append, List.nil_append]
                    rw [scanChunk_u]
                    simp only [hex4Val_hex4 c.toNat hbmp]
                    rw [if_neg (by omega : ¬ (55296 ≤ c.toNat ∧ c.toNat ≤ 56319)),
                      if_neg (by omega : ¬ (56320 ≤ c.toNat ∧ c.toNat ≤ 57343)),
                      charOfNatToNat c]
                  · have hval := charValidRanges c
                    have hlt := charToNatLT c
                    rw [show escapeChar c =
                        ('\\' :: 'u' :: hex4 (55296 + (c.toNat - 65536) / 1024)) ++
                          ('\\' :: 'u' :: hex4 (56320 + (c.toNat - 65536) % 1024)) from by
                      simp only [escapeChar]
                      rw [if_neg h34, if_neg h92, if_neg h8, if_neg h12, if_neg h10, if_neg h13,
                        if_neg h9, if_neg hprint, if_neg hbmp]]
                    simp only [hex4, List.cons_append, List.nil_append]
                    rw [scanChunk_u]
                    simp only [hex4Val_hex4 (55296 + (c.toNat - 65536) / 1024) (by omega)]
                    rw [if_pos (by omega : 55296 ≤ 55296 + (c.toNat - 65536) / 1024 ∧
                      55296 + (c.toNat - 65536) / 1024 ≤ 56319)]
                    rw [if_pos (show Char.toNat '\\' = 92 ∧ Char.toNat 'u' = 117 from ⟨rfl, rfl⟩)]
                    simp only [hex4Val_hex4 (56320 + (c.toNat - 65536) % 1024) (by omega)]
                    rw [if_pos (by omega : 56320 ≤ 56320 + (c.toNat - 65536) % 1024 ∧
                      56320 + (c.toNat - 65536) % 1024 ≤ 57343)]
                    have hcomb : 65536 + ((55296 + (c.toNat - 65536) / 1024 - 55296) * 1024 +
                        (56320 + (c.toNat - 65536) % 1024 - 56320)) = c.toNat := by omega
                    rw [hcomb, charOfNatToNat c]

/-- An escape sequence is never empty. -/
theorem escapeChar_ne_nil (c : Char) : escapeChar c ≠ [] := by
  intro h
  have h2 := scanChunk_escape c []
  rw [h] at h2
  exact Option.noConfusion h2

/-- Escaping cannot shrink a string. -/
theorem escapeString_length_ge : ∀ s : List Char, s.length ≤ (escapeString s).length := by
  intro s
  induction s with
  | nil => simp
  | cons c s2 ih =>
    show s2.length + 1 ≤ (escapeChar c ++ escapeString s2).length
    rw [List.length_append]
    have h1 : 0 < (escapeChar c).length := List.length_pos.mpr (escapeChar_ne_nil c)
    omega

/-- Step of the string loop on a successful chunk. -/
theorem psl_step (f : Nat) (s : List Char) (ch : Char) (r : List Char)
    (h : scanChunk s = some (some ch, r)) :
    parseStringLoop (f + 1) s = consFst ch (parseStringLoop f r) := by
  simp only [parseStringLoop, h]

/-- The string loop reads back an escaped string followed by the closing
quote, given one unit of fuel per character plus one. -/
theorem parseStringLoop_escape : ∀ s fuel rest, s.length + 1 ≤ fuel →
    parseStringLoop fuel (escapeString s ++ ('"' :: rest)) = some (s, rest) := by
  intro s
  induction s with
  | nil =>
    intro fuel rest h
    cases fuel with
    | zero => omega
    | succ f => rfl
  | cons c s2 ih =>
    intro fuel rest h
    cases fuel with
    | zero => simp at h
    | succ f =>
      show parseStringLoop (f + 1) ((escapeChar c ++ escapeString s2) ++ ('"' :: rest)) =
        some (c :: s2, rest)
      rw [List.append_assoc]
      rw [psl_step f _ c _ (scanChunk_escape c _)]
      rw [ih f rest (by simp at h; omega)]
      rfl

/-- The string scanner reads back exactly an escaped string followed by the
closing quote. -/
theorem parseStringBody_escape (s rest : List Char) :
    parseStringBody (escapeString s ++ ('"' :: rest)) = some (s, rest) := by
  unfold parseStringBody
  apply parseStringLoop_escape
  have h := escapeString_length_ge s
  rw [List.length_append]
  simp only [List.length_cons]
  omega

/-! ### Whitespace -/

/-- Skipping stops at a non-whitespace character. -/
theorem skipWs_cons_not (c : Char) (r : List Char) (h : isWsC c = false) :
    skipWs (c :: r) = c :: r := by
  simp [skipWs, h]

/-- Leading spaces are skipped. -/
theorem skipWs_replicate (n : Nat) (s : List Char) :
    skipWs (List.replicate n ' ' ++ s) = skipWs s := by
  induction n with
  | zero => rfl
  | succ m ih =>
    rw [List.replicate_succ, List.cons_append]
    show skipWs (' ' :: (List.replicate m ' ' ++ s)) = skipWs s
    rw [show skipWs (' ' :: (List.replicate m ' ' ++ s)) =
      skipWs (List.replicate m ' ' ++ s) from by simp [skipWs, isWsC]]
    exact ih

/-- A newline-indent in front of the input is skipped. -/
theorem skipWs_nlIndent (lvl : Nat) (s : List Char) :
    skipWs (nlIndent lvl ++ s) = skipWs s := by
  unfold nlIndent
  rw [List.cons_append]
  rw [show skipWs ('\n' :: (List.replicate (4 * lvl) ' ' ++ s)) =
    skipWs (List.replicate (4 * lvl) ' ' ++ s) from by simp [skipWs, isWsC]]
  exact skipWs_replicate _ s

/-! ### Serialization heads -/

/-- The serialization of an integer starts with a minus sign or a digit. -/
theorem intRepr_head (n : Int) :
    ∃ c cs, intRepr n = c :: cs ∧ (c.toNat = 45 ∨ isDigitC c = true) := by
  unfold intRepr
  by_cases h : n < 0
  · rw [if_pos h]
    exact ⟨'-', natRepr n.natAbs, rfl, Or.inl rfl⟩
  · rw [if_neg h]
    obtain ⟨c, cs, heq, hd⟩ := natRepr_head n.toNat
    exact ⟨c, cs, heq, Or.inr hd⟩

/-- Every serialization starts with a character that is not whitespace, not a
closing bracket and not a closing brace. -/
theorem dumpVal_head (lvl : Nat) (v : JVal) : ∃ c cs, dumpVal lvl v = c :: cs ∧
    isWsC c = false ∧ c.toNat ≠ 93 ∧ c.toNat ≠ 125 := by
  cases v with
  | null => exact ⟨'n', ['u', 'l', 'l'], rfl, rfl, by decide, by decide⟩
  | bool b =>
    cases b with
    | true => exact ⟨'t', ['r', 'u', 'e'], rfl, rfl, by decide, by decide⟩
    | false => exact ⟨'f', ['a', 'l', 's', 'e'], rfl, rfl, by decide, by decide⟩
  | int n =>
    obtain ⟨c, cs, heq, hc⟩ := intRepr_head n
    refine ⟨c, cs, heq, ?_, ?_, ?_⟩
    · simp only [isWsC, isDigitC, decide_eq_true_eq] at hc ⊢
      simp only [decide_eq_false_iff_not]
      omega
    · simp only [isDigitC, decide_eq_true_eq] at hc
      omega
    · simp only [isDigitC, decide_eq_true_eq] at hc
      omega
  | str s => exact ⟨'"', escapeString s ++ ['"'], rfl, rfl, by decide, by decide⟩
  | arr xs =>
    cases xs with
    | nil => exact ⟨'[', [']'], rfl, rfl, by decide, by decide⟩
    | cons x ys =>
      exact ⟨'[', nlIndent (lvl + 1) ++ (dumpItems (lvl + 1) (.cons x ys) ++ (nlIndent lvl ++ [']'])),
        rfl, rfl, by decide, by decide⟩
  | obj kvs =>
    cases kvs with
    | nil => exact ⟨'\x7b', ['\x7d'], rfl, rfl, by decide, by decide⟩
    | cons k v es =>
      exact ⟨'\x7b',
        nlIndent (lvl + 1) ++ (dumpEntries (lvl + 1) (.cons k v es) ++ (nlIndent lvl ++ ['\x7d'])),
        rfl, rfl, by decide, by decide⟩

/-- Whitespace skipping does not move past the start of a serialization. -/
theorem skipWs_dump (lvl : Nat) (v : JVal) (rest : List Char) :
    skipWs (dumpVal lvl v ++ rest) = dumpVal lvl v ++ rest := by
  obtain ⟨c, cs, heq, hws, _, _⟩ := dumpVal_head lvl v
  rw [heq, List.cons_append, skipWs_cons_not c _ hws]

/-- A serialization is never empty. -/
theorem dumpVal_len_pos (lvl : Nat) (v : JVal) : 1 ≤ (dumpVal lvl v).length := by
  obtain ⟨c, cs, heq, _, _, _⟩ := dumpVal_head lvl v
  rw [heq]
  simp

/-! ### Python dict construction -/

/-- Membership distributes over key-list append. -/
theorem keyListMem_append (k : List Char) : ∀ xs ys,
    keyListMem k (xs ++ ys) = (keyListMem k xs || keyListMem k ys) := by
  intro xs
  induction xs with
  | nil => intro ys; simp [keyListMem]
  | cons k2 r ih =>
    intro ys
    simp only [List.cons_append, keyListMem, List.append_eq, ih, Bool.or_assoc]

/-- A key absent from a list differs from every member. -/
theorem keyListMem_false_ne (k k2 : List Char) : ∀ l, keyListMem k l = false →
    keyListMem k2 l = true → decide (k2 = k) = false := by
  intro l
  induction l with
  | nil => intro _ h2; simp [keyListMem] at h2
  | cons a r ih =>
    intro h1 h2
    simp only [keyListMem, Bool.or_eq_false_iff] at h1
    simp only [keyListMem, Bool.or_eq_true] at h2
    rcases h2 with h2 | h2
    · have ha : k2 = a := of_decide_eq_true h2
      subst ha
      have hne : ¬ (k = k2) := of_decide_eq_false h1.1
      simp only [decide_eq_false_iff_not]
      intro hc
      exact hne hc.symm
    · exact ih h1.2 h2

/-- Appending the empty dict changes nothing. -/
theorem objApp_nil : ∀ p, objApp p .nil = p := by
  intro p
  induction p using jobjInduction with
  | hnil => rfl
  | hcons k v r ih => show JObj.cons k v (objApp r .nil) = _; rw [ih]

/-- objApp is associative. -/
theorem objApp_assoc : ∀ p q r, objApp (objApp p q) r = objApp p (objApp q r) := by
  intro p
  induction p using jobjInduction with
  | hnil => intro q r; rfl
  | hcons k v s ih =>
    intro q r
    show JObj.cons k v (objApp (objApp s q) r) = JObj.cons k v (objApp s (objApp q r))
    rw [ih]

/-- Keys of an append. -/
theorem objKeys_objApp : ∀ p q, objKeys (objApp p q) = objKeys p ++ objKeys q := by
  intro p
  induction p using jobjInduction with
  | hnil => intro q; rfl
  | hcons k v r ih =>
    intro q
    show k :: objKeys (objApp r q) = k :: (objKeys r ++ objKeys q)
    rw [ih]

/-- Inserting a fresh key appends it. -/
theorem objSet_notmem : ∀ acc k v, keyListMem k (objKeys acc) = false →
    objSet acc k v = objApp acc (.cons k v .nil) := by
  intro acc
  induction acc using jobjInduction with
  | hnil => intro k v _; rfl
  | hcons k2 v2 r ih =>
    intro k v h
    simp only [objKeys, keyListMem, Bool.or_eq_false_iff] at h
    show (if k2 = k then JObj.cons k2 v r else JObj.cons k2 v2 (objSet r k v)) = _
    rw [if_neg (fun hc => by simp [hc] at h)]
    show JObj.cons k2 v2 (objSet r k v) = JObj.cons k2 v2 (objApp r (.cons k v .nil))
    rw [ih k v h.2]

/-- Folding fresh, pairwise distinct pairs into a dict appends them. -/
theorem dictAdd_app : ∀ ps acc,
    (∀ k2, keyListMem k2 (objKeys ps) = true → keyListMem k2 (objKeys acc) = false) →
    nodupKeys (objKeys ps) = true → dictAdd acc ps = objApp acc ps := by
  intro ps
  induction ps using jobjInduction with
  | hnil => intro acc _ _; show acc = objApp acc .nil; rw [objApp_nil]
  | hcons k v r ih =>
    intro acc hdisj hnodup
    simp only [objKeys, nodupKeys, Bool.and_eq_true, Bool.not_eq_eq_eq_not, Bool.not_true] at hnodup
    show dictAdd (objSet acc k v) r = _
    have hknot : keyListMem k (objKeys acc) = false := by
      apply hdisj k
      simp [objKeys, keyListMem]
    rw [objSet_notmem acc k v hknot]
    rw [ih (objApp acc (.cons k v .nil)) ?_ hnodup.2]
    · rw [objApp_assoc]
      rfl
    · intro k2 hk2
      rw [objKeys_objApp, keyListMem_append]
      have h1 : keyListMem k2 (objKeys acc) = false := by
        apply hdisj k2
        simp only [objKeys, keyListMem, hk2, Bool.or_true]
      have h2 : decide (k2 = k) = false := keyListMem_false_ne k k2 (objKeys r) hnodup.1 hk2
      rw [h1]
      simp only [objKeys, keyListMem, h2, Bool.or_false]

/-- dict(pairs) returns the pairs unchanged when the keys are pairwise
distinct. -/
theorem dictOfPairs_nodup (ps : JObj) (h : nodupKeys (objKeys ps) = true) :
    dictOfPairs ps = ps := by
  unfold dictOfPairs
  rw [dictAdd_app ps .nil (fun k2 _ => rfl) h]
  rfl

/-! ### Fuel accounting -/

/-- Length of a newline-indent. -/
theorem nlIndent_length (lvl : Nat) : (nlIndent lvl).length = 1 + 4 * lvl := by
  simp [nlIndent]
  omega

/-- The loop fuel of an item run is bounded by its serialized length. -/
theorem sumFList_le_items : ∀ ilvl xs x, sumFList ilvl (.cons x xs) + 1 ≤
    (dumpItems ilvl (.cons x xs)).length + 4 := by
  intro ilvl xs
  induction xs using jlistInduction with
  | hnil =>
    intro x
    show (dumpVal ilvl x).length + 2 + 0 + 1 ≤ (dumpVal ilvl x).length + 4
    omega
  | hcons y ys ih =>
    intro x
    have h1 := ih y
    show (dumpVal ilvl x).length + 2 + sumFList ilvl (.cons y ys) + 1 ≤ _ + 4
    rw [show dumpItems ilvl (.cons x (.cons y ys)) =
      dumpVal ilvl x ++ (',' :: (nlIndent ilvl ++ dumpItems ilvl (.cons y ys))) from rfl]
    rw [List.length_append, List.length_cons, List.length_append, nlIndent_length]
    omega

/-- Fuel bound for the element loop of a serialized array. -/
theorem arrFuel_le (lvl : Nat) (x : JVal) (xs : JList) :
    sumFList (lvl + 1) (.cons x xs) + 2 ≤ (dumpVal lvl (.arr (.cons x xs))).length := by
  have h1 := sumFList_le_items (lvl + 1) xs x
  rw [show dumpVal lvl (.arr (.cons x xs)) =
    '[' :: (nlIndent (lvl + 1) ++ (dumpItems (lvl + 1) (.cons x xs) ++ (nlIndent lvl ++ [']'])))
    from rfl]
  simp only [List.length_cons, List.length_append, nlIndent_length, List.length_singleton]
  omega

/-- The loop fuel of an entry run is bounded by its serialized length. -/
theorem sumFObj_le_entries : ∀ ilvl kvs k v, sumFObj ilvl (.cons k v kvs) + 1 ≤
    (dumpEntries ilvl (.cons k v kvs)).length := by
  intro ilvl kvs
  induction kvs using jobjInduction with
  | hnil =>
    intro k v
    show (dumpVal ilvl v).length + 2 + 0 + 1 ≤ _
    rw [show dumpEntries ilvl (.cons k v .nil) =
      '"' :: (escapeString k ++ ('"' :: (':' :: (' ' :: dumpVal ilvl v)))) from rfl]
    simp only [List.length_cons, List.length_append]
    omega
  | hcons k2 w es ih =>
    intro k v
    have h1 := ih k2 w
    show (dumpVal ilvl v).length + 2 + sumFObj ilvl (.cons k2 w es) + 1 ≤ _
    rw [show dumpEntries ilvl (.cons k v (.cons k2 w es)) =
      ('"' :: (escapeString k ++ ('"' :: (':' :: (' ' :: dumpVal ilvl v))))) ++
        (',' :: (nlIndent ilvl ++ dumpEntries ilvl (.cons k2 w es))) from rfl]
    simp only [List.length_cons, List.length_append, nlIndent_length]
    omega

/-- Fuel bound for the entry loop of a serialized object. -/
theorem objFuel_le (lvl : Nat) (k : List Char) (v : JVal) (kvs : JObj) :
    sumFObj (lvl + 1) (.cons k v kvs) + 2 ≤ (dumpVal lvl (.obj (.cons k v kvs))).length := by
  have h1 := sumFObj_le_entries (lvl + 1) kvs k v
  rw [show dumpVal lvl (.obj (.cons k v kvs)) =
    '\x7b' :: (nlIndent (lvl + 1) ++ (dumpEntries (lvl + 1) (.cons k v kvs) ++
      (nlIndent lvl ++ ['\x7d']))) from rfl]
  simp only [List.length_cons, List.length_append, nlIndent_length, List.length_singleton]
  omega

/-- The serialized entries are the opening quote of the first key followed by
the tail the entry loop consumes. -/
theorem dumpEntries_objTail : ∀ ilvl kvs k v,
    dumpEntries ilvl (.cons k v kvs) = '"' :: objTail ilvl (.cons k v kvs) := by
  intro ilvl kvs
  induction kvs using jobjInduction with
  | hnil => intro k v; rfl
  | hcons k2 w es ih =>
    intro k v
    show ('"' :: (escapeString k ++ ('"' :: (':' :: (' ' :: dumpVal ilvl v))))) ++
      (',' :: (nlIndent ilvl ++ dumpEntries ilvl (.cons k2 w es))) = _
    rw [ih k2 w]
    rfl

/-! ### Follower sets -/

/-- A newline-indent is an allowed follower. -/
theorem followOk_nlIndent (lvl : Nat) (z : List Char) : followOk (nlIndent lvl ++ z) :=
  Or.inr (Or.inl rfl)

/-- A comma is an allowed follower. -/
theorem followOk_comma (z : List Char) : followOk (',' :: z) := Or.inl rfl

/-- Skipping whitespace before a serialized item run is the identity. -/
theorem skipWs_dumpItems (ilvl : Nat) (y : JVal) (ys : JList) (z : List Char) :
    skipWs (dumpItems ilvl (.cons y ys) ++ z) = dumpItems ilvl (.cons y ys) ++ z := by
  cases ys with
  | nil => exact skipWs_dump ilvl y z
  | cons w ws =>
    show skipWs ((dumpVal ilvl y ++ (',' :: (nlIndent ilvl ++ dumpItems ilvl (.cons w ws)))) ++ z)
      = _
    rw [List.append_assoc]
    rw [skipWs_dump]
    rw [show dumpItems ilvl (.cons y (.cons w ws)) =
      dumpVal ilvl y ++ (',' :: (nlIndent ilvl ++ dumpItems ilvl (.cons w ws))) from rfl,
      List.append_assoc]

/-! ### Scanner dispatch -/

/-- The scanner at the null keyword. -/
theorem scanOnce_null (F : Nat) (rest : List Char) :
    scanOnce (F + 1) ('n' :: 'u' :: 'l' :: 'l' :: rest) = some (.null, rest) := rfl

/-- The scanner at the true keyword. -/
theorem scanOnce_true (F : Nat) (rest : List Char) :
    scanOnce (F + 1) ('t' :: 'r' :: 'u' :: 'e' :: rest) = some (.bool true, rest) := rfl

/-- The scanner at the false keyword. -/
theorem scanOnce_false (F : Nat) (rest : List Char) :
    scanOnce (F + 1) ('f' :: 'a' :: 'l' :: 's' :: 'e' :: rest) = some (.bool false, rest) := rfl

/-- The scanner at an opening quote. -/
theorem scanOnce_quote (F : Nat) (t : List Char) :
    scanOnce (F + 1) ('"' :: t) =
      (match parseStringBody t with
       | some (cs, rest) => some (.str cs, rest)
       | none => none) := rfl

/-- The scanner at an opening bracket, once the whitespace after it is known. -/
theorem scanOnce_arr2 (F : Nat) (t : List Char) (d : Char) (t2 : List Char)
    (h : skipWs t = d :: t2) :
    scanOnce (F + 1) ('[' :: t) =
      (if d.toNat = 93 then some (.arr .nil, t2)
       else match arrLoop F (d :: t2) with
         | some (xs, rest) => some (.arr xs, rest)
         | none => none) := by
  simp only [scanOnce, h]
  rw [if_neg (by decide : ¬ Char.toNat '[' = 34), if_neg (by decide : ¬ Char.toNat '[' = 123),
    if_pos (show Char.toNat '[' = 91 from rfl)]

/-- The scanner at an opening brace, once the whitespace after it is known. -/
theorem scanOnce_obj2 (F : Nat) (t : List Char) (d : Char) (t2 : List Char)
    (h : skipWs t = d :: t2) :
    scanOnce (F + 1) ('\x7b' :: t) =
      (if d.toNat = 125 then some (.obj .nil, t2)
       else if d.toNat = 34 then
         (match objLoop F t2 with
          | some (kvs, rest) => some (.obj (dictOfPairs kvs), rest)
          | none => none)
       else none) := by
  simp only [scanOnce, h]
  rw [if_neg (by decide : ¬ Char.toNat '\x7b' = 34),
    if_pos (show Char.toNat '\x7b' = 123 from rfl)]

/-- The scanner at a minus sign or digit falls through to the number match. -/
theorem scanOnce_num (F : Nat) (c : Char) (r : List Char)
    (hc : c.toNat = 45 ∨ isDigitC c = true) :
    scanOnce (F + 1) (c :: r) = parseNumber (c :: r) := by
  have hcn : c.toNat = 45 ∨ (48 ≤ c.toNat ∧ c.toNat ≤ 57) := by
    rcases hc with h | h
    · exact Or.inl h
    · right
      simpa [isDigitC] using h
  have hn : dropLit ("null".toList) (c :: r) = none := by
    show (if 'n' = c then dropLit ("ull".toList) r else none) = none
    rw [if_neg]
    intro he
    rw [← he] at hcn
    exact absurd hcn (by decide)
  have ht : dropLit ("true".toList) (c :: r) = none := by
    show (if 't' = c then dropLit ("rue".toList) r else none) = none
    rw [if_neg]
    intro he
    rw [← he] at hcn
    exact absurd hcn (by decide)
  have hf : dropLit ("false".toList) (c :: r) = none := by
    show (if 'f' = c then dropLit ("alse".toList) r else none) = none
    rw [if_neg]
    intro he
    rw [← he] at hcn
    exact absurd hcn (by decide)
  simp only [scanOnce]
  rw [if_neg (by omega : ¬ c.toNat = 34), if_neg (by omega : ¬ c.toNat = 123),
    if_neg (by omega : ¬ c.toNat = 91), hn, ht, hf]

/-! ### The loops read back serialized containers -/

/-- The element loop reads back a serialized nonempty item run followed by the
closing newline-indent and bracket. -/
theorem arrLoop_dump (F : Nat)
    (IH : ∀ G, G < F → ∀ v lvl rest, pyWf v = true → followOk rest →
      (dumpVal lvl v).length + 1 ≤ G → scanOnce G (dumpVal lvl v ++ rest) = some (v, rest)) :
    ∀ F2, F2 < F → ∀ ilvl x xs clvl rest, pyWfList (.cons x xs) = true →
      sumFList ilvl (.cons x xs) ≤ F2 →
      arrLoop F2 (dumpItems ilvl (.cons x xs) ++ (nlIndent clvl ++ (']' :: rest))) =
        some (.cons x xs, rest) := by
  intro F2
  induction F2 using Nat.strong_induction_on with
  | _ F2 IH2 =>
    intro hF2F ilvl x xs clvl rest hwf hfuel
    have hLx := dumpVal_len_pos ilvl x
    have hsum : sumFList ilvl (.cons x xs) =
      (dumpVal ilvl x).length + 2 + sumFList ilvl xs := rfl
    have hwf2 : pyWf x = true ∧ pyWfList xs = true := by
      have heq : pyWfList (.cons x xs) = (pyWf x && pyWfList xs) := rfl
      rw [heq, Bool.and_eq_true] at hwf
      exact hwf
    cases F2 with
    | zero => omega
    | succ F3 =>
      cases xs with
      | nil =>
        have hscan : scanOnce F3 (dumpVal ilvl x ++ (nlIndent clvl ++ (']' :: rest))) =
            some (x, nlIndent clvl ++ (']' :: rest)) :=
          IH F3 (by omega) x ilvl _ hwf2.1 (followOk_nlIndent clvl _) (by omega)
        have hskip : skipWs (nlIndent clvl ++ (']' :: rest)) = ']' :: rest := by
          rw [skipWs_nlIndent]
          exact skipWs_cons_not _ _ rfl
        show arrLoop (F3 + 1) (dumpVal ilvl x ++ (nlIndent clvl ++ (']' :: rest))) = _
        simp only [arrLoop, hscan, hskip]
        rw [if_pos (show Char.toNat ']' = 93 from rfl)]
      | cons y ys =>
        have hin : dumpItems ilvl (.cons x (.cons y ys)) ++ (nlIndent clvl ++ (']' :: rest)) =
            dumpVal ilvl x ++ ((',' :: (nlIndent ilvl ++ dumpItems ilvl (.cons y ys))) ++
              (nlIndent clvl ++ (']' :: rest))) := by
          rw [show dumpItems ilvl (.cons x (.cons y ys)) =
            dumpVal ilvl x ++ (',' :: (nlIndent ilvl ++ dumpItems ilvl (.cons y ys))) from rfl,
            List.append_assoc]
        rw [hin]
        have hfo2 : followOk ((',' :: (nlIndent ilvl ++ dumpItems ilvl (.cons y ys))) ++
            (nlIndent clvl ++ (']' :: rest))) := followOk_comma _
        have hscan : scanOnce F3 (dumpVal ilvl x ++
            ((',' :: (nlIndent ilvl ++ dumpItems ilvl (.cons y ys))) ++
              (nlIndent clvl ++ (']' :: rest)))) =
            some (x, (',' :: (nlIndent ilvl ++ dumpItems ilvl (.cons y ys))) ++
              (nlIndent clvl ++ (']' :: rest))) :=
          IH F3 (by omega) x ilvl _ hwf2.1 hfo2 (by omega)
        have hskip : skipWs ((',' :: (nlIndent ilvl ++ dumpItems ilvl (.cons y ys))) ++
            (nlIndent clvl ++ (']' :: rest))) =
            ',' :: ((nlIndent ilvl ++ dumpItems ilvl (.cons y ys)) ++
              (nlIndent clvl ++ (']' :: rest))) := by
          rw [List.cons_append]
          exact skipWs_cons_not _ _ rfl
        have hskip2 : skipWs ((nlIndent ilvl ++ dumpItems ilvl (.cons y ys)) ++
            (nlIndent clvl ++ (']' :: rest))) =
            dumpItems ilvl (.cons y ys) ++ (nlIndent clvl ++ (']' :: rest)) := by
          rw [List.append_assoc, skipWs_nlIndent, skipWs_dumpItems]
        have hsum2 : sumFList ilvl (.cons y ys) =
          (dumpVal ilvl y).length + 2 + sumFList ilvl ys := rfl
        have hrec := IH2 F3 (by omega) (by omega) ilvl y ys clvl rest
          (by
            have heq : pyWfList (.cons y ys) = pyWfList (JList.cons y ys) := rfl
            exact hwf2.2)
          (by omega)
        show arrLoop (F3 + 1) _ = _
        simp only [arrLoop, hscan, hskip]
        rw [if_neg (by decide : ¬ Char.toNat ',' = 93),
          if_pos (show Char.toNat ',' = 44 from rfl), hskip2, hrec]

/-- The entry loop reads back a serialized nonempty entry run (after the
opening quote of the first key) followed by the closing newline-indent and
brace. -/
theorem objLoop_dump (F : Nat)
    (IH : ∀ G, G < F → ∀ v lvl rest, pyWf v = true → followOk rest →
      (dumpVal lvl v).length + 1 ≤ G → scanOnce G (dumpVal lvl v ++ rest) = some (v, rest)) :
    ∀ F2, F2 < F → ∀ ilvl k v kvs clvl rest, pyWfObj (.cons k v kvs) = true →
      sumFObj ilvl (.cons k v kvs) ≤ F2 →
      objLoop F2 (objTail ilvl (.cons k v kvs) ++ (nlIndent clvl ++ ('\x7d' :: rest))) =
        some (.cons k v kvs, rest) := by
  intro F2
  induction F2 using Nat.strong_induction_on with
  | _ F2 IH2 =>
    intro hF2F ilvl k v kvs clvl rest hwf hfuel
    have hLv := dumpVal_len_pos ilvl v
    have hsum : sumFObj ilvl (.cons k v kvs) =
      (dumpVal ilvl v).length + 2 + sumFObj ilvl kvs := rfl
    have hwf2 : pyWf v = true ∧ pyWfObj kvs = true := by
      have heq : pyWfObj (.cons k v kvs) = (pyWf v && pyWfObj kvs) := rfl
      rw [heq, Bool.and_eq_true] at hwf
      exact hwf
    cases F2 with
    | zero => omega
    | succ F3 =>
      cases kvs with
      | nil =>
        have hin : objTail ilvl (.cons k v .nil) ++ (nlIndent clvl ++ ('\x7d' :: rest)) =
            escapeString k ++ ('"' :: ((':' :: (' ' :: dumpVal ilvl v)) ++
              (nlIndent clvl ++ ('\x7d' :: rest)))) := by
          show (escapeString k ++ ('"' :: (':' :: (' ' :: dumpVal ilvl v)))) ++
            (nlIndent clvl ++ ('\x7d' :: rest)) = _
          rw [List.append_assoc, List.cons_append]
        rw [hin]
        have hstr := parseStringBody_escape k
          ((':' :: (' ' :: dumpVal ilvl v)) ++ (nlIndent clvl ++ ('\x7d' :: rest)))
        have hskip1 : skipWs ((':' :: (' ' :: dumpVal ilvl v)) ++
            (nlIndent clvl ++ ('\x7d' :: rest))) =
            ':' :: ((' ' :: dumpVal ilvl v) ++ (nlIndent clvl ++ ('\x7d' :: rest))) := by
          rw [List.cons_append]
          exact skipWs_cons_not _ _ rfl
        have hskip2 : skipWs ((' ' :: dumpVal ilvl v) ++ (nlIndent clvl ++ ('\x7d' :: rest))) =
            dumpVal ilvl v ++ (nlIndent clvl ++ ('\x7d' :: rest)) := by
          rw [List.cons_append]
          rw [show skipWs (' ' :: (dumpVal ilvl v ++ (nlIndent clvl ++ ('\x7d' :: rest)))) =
            skipWs (dumpVal ilvl v ++ (nlIndent clvl ++ ('\x7d' :: rest))) from by
              simp [skipWs, isWsC]]
          exact skipWs_dump ilvl v _
        have hscan : scanOnce F3 (dumpVal ilvl v ++ (nlIndent clvl ++ ('\x7d' :: rest))) =
            some (v, nlIndent clvl ++ ('\x7d' :: rest)) :=
          IH F3 (by omega) v ilvl _ hwf2.1 (followOk_nlIndent clvl _) (by omega)
        have hskip3 : skipWs (nlIndent clvl ++ ('\x7d' :: rest)) = '\x7d' :: rest := by
          rw [skipWs_nlIndent]
          exact skipWs_cons_not _ _ rfl
        show objLoop (F3 + 1) _ = _
        simp only [objLoop, hstr, hskip1]
        rw [if_pos (show Char.toNat ':' = 58 from rfl)]
        simp only [hskip2, hscan, hskip3]
        rw [if_pos (show Char.toNat '\x7d' = 125 from rfl)]
      | cons k2 w es =>
        have hin : objTail ilvl (.cons k v (.cons k2 w es)) ++
            (nlIndent clvl ++ ('\x7d' :: rest)) =
            escapeString k ++ ('"' :: ((':' :: (' ' :: dumpVal ilvl v)) ++
              ((',' :: (nlIndent ilvl ++ ('"' :: objTail ilvl (.cons k2 w es)))) ++
                (nlIndent clvl ++ ('\x7d' :: rest))))) := by
          show ((escapeString k ++ ('"' :: (':' :: (' ' :: dumpVal ilvl v)))) ++
            (',' :: (nlIndent ilvl ++ ('"' :: objTail ilvl (.cons k2 w es))))) ++
            (nlIndent clvl ++ ('\x7d' :: rest)) = _
          rw [List.append_assoc, List.append_assoc, List.cons_append]
        rw [hin]
        have hstr := parseStringBody_escape k
          ((':' :: (' ' :: dumpVal ilvl v)) ++
            ((',' :: (nlIndent ilvl ++ ('"' :: objTail ilvl (.cons k2 w es)))) ++
              (nlIndent clvl ++ ('\x7d' :: rest))))
        have hskip1 : skipWs ((':' :: (' ' :: dumpVal ilvl v)) ++
            ((',' :: (nlIndent ilvl ++ ('"' :: objTail ilvl (.cons k2 w es)))) ++
              (nlIndent clvl ++ ('\x7d' :: rest)))) =
            ':' :: ((' ' :: dumpVal ilvl v) ++
              ((',' :: (nlIndent ilvl ++ ('"' :: objTail ilvl (.cons k2 w es)))) ++
                (nlIndent clvl ++ ('\x7d' :: rest)))) := by
          rw [List.cons_append]
          exact skipWs_cons_not _ _ rfl
        have hskip2 : skipWs ((' ' :: dumpVal ilvl v) ++
            ((',' :: (nlIndent ilvl ++ ('"' :: objTail ilvl (.cons k2 w es)))) ++
              (nlIndent clvl ++ ('\x7d' :: rest)))) =
            dumpVal ilvl v ++
              ((',' :: (nlIndent ilvl ++ ('"' :: objTail ilvl (.cons k2 w es)))) ++
                (nlIndent clvl ++ ('\x7d' :: rest))) := by
          rw [List.cons_append]
          rw [show skipWs (' ' :: (dumpVal ilvl v ++
            ((',' :: (nlIndent ilvl ++ ('"' :: objTail ilvl (.cons k2 w es)))) ++
              (nlIndent clvl ++ ('\x7d' :: rest))))) =
            skipWs (dumpVal ilvl v ++
              ((',' :: (nlIndent ilvl ++ ('"' :: objTail ilvl (.cons k2 w es)))) ++
                (nlIndent clvl ++ ('\x7d' :: rest)))) from by
              simp [skipWs, isWsC]]
          exact skipWs_dump ilvl v _
        have hfoS : followOk ((',' :: (nlIndent ilvl ++ ('"' :: objTail ilvl (.cons k2 w es)))) ++
            (nlIndent clvl ++ ('\x7d' :: rest))) := followOk_comma _
        have hscan : scanOnce F3 (dumpVal ilvl v ++
            ((',' :: (nlIndent ilvl ++ ('"' :: objTail ilvl (.cons k2 w es)))) ++
              (nlIndent clvl ++ ('\x7d' :: rest)))) =
            some (v, (',' :: (nlIndent ilvl ++ ('"' :: objTail ilvl (.cons k2 w es)))) ++
              (nlIndent clvl ++ ('\x7d' :: rest))) :=
          IH F3 (by omega) v ilvl _ hwf2.1 hfoS (by omega)
        have hskip3 : skipWs ((',' :: (nlIndent ilvl ++ ('"' :: objTail ilvl (.cons k2 w es)))) ++
            (nlIndent clvl ++ ('\x7d' :: rest))) =
            ',' :: ((nlIndent ilvl ++ ('"' :: objTail ilvl (.cons k2 w es))) ++
              (nlIndent clvl ++ ('\x7d' :: rest))) := by
          rw [List.cons_append]
          exact skipWs_cons_not _ _ rfl
        have hskip4 : skipWs ((nlIndent ilvl ++ ('"' :: objTail ilvl (.cons k2 w es))) ++
            (nlIndent clvl ++ ('\x7d' :: rest))) =
            '"' :: (objTail ilvl (.cons k2 w es) ++ (nlIndent clvl ++ ('\x7d' :: rest))) := by
          rw [List.append_assoc, skipWs_nlIndent, List.cons_append]
          exact skipWs_cons_not _ _ rfl
        have hsum2 : sumFObj ilvl (.cons k2 w es) =
          (dumpVal ilvl w).length + 2 + sumFObj ilvl es := rfl
        have hrec := IH2 F3 (by omega) (by omega) ilvl k2 w es clvl rest hwf2.2 (by omega)
        show objLoop (F3 + 1) _ = _
        simp only [objLoop, hstr, hskip1]
        rw [if_pos (show Char.toNat ':' = 58 from rfl)]
        simp only [hskip2, hscan, hskip3]
        rw [if_neg (by decide : ¬ Char.toNat ',' = 125),
          if_pos (show Char.toNat ',' = 44 from rfl)]
        simp only [hskip4]
        rw [if_pos (show Char.toNat '"' = 34 from rfl)]
        simp only [hrec]

/-- The head of a serialized item run is the head of its first item. -/
theorem dumpItems_head (ilvl : Nat) (x : JVal) (ys : JList) :
    ∃ c cs, dumpItems ilvl (.cons x ys) = c :: cs ∧
      isWsC c = false ∧ c.toNat ≠ 93 ∧ c.toNat ≠ 125 := by
  obtain ⟨c, cs, heq, h1, h2, h3⟩ := dumpVal_head ilvl x
  cases ys with
  | nil => exact ⟨c, cs, heq, h1, h2, h3⟩
  | cons w ws =>
    refine ⟨c, cs ++ (',' :: (nlIndent ilvl ++ dumpItems ilvl (.cons w ws))), ?_, h1, h2, h3⟩
    show dumpVal ilvl x ++ (',' :: (nlIndent ilvl ++ dumpItems ilvl (.cons w ws))) = _
    rw [heq, List.cons_append]

/-- The scanner reads back exactly the serialization of a representable
value when an allowed follower or the end of the input comes after it. -/
theorem scanOnce_dump : ∀ F v lvl rest, pyWf v = true → followOk rest →
    (dumpVal lvl v).length + 1 ≤ F →
    scanOnce F (dumpVal lvl v ++ rest) = some (v, rest) := by
  intro F
  induction F using Nat.strong_induction_on with
  | _ F IH =>
    intro v lvl rest hwf hfo hlen
    have hpos := dumpVal_len_pos lvl v
    cases F with
    | zero => omega
    | succ F1 =>
      cases v with
      | null => exact scanOnce_null F1 rest
      | bool b =>
        cases b with
        | false => exact scanOnce_false F1 rest
        | true => exact scanOnce_true F1 rest
      | int n =>
        obtain ⟨c, cs, heq, hc⟩ := intRepr_head n
        have hd : dumpVal lvl (.int n) = intRepr n := rfl
        rw [hd, heq, List.cons_append, scanOnce_num F1 c _ hc, ← List.cons_append, ← heq]
        exact parseNumber_intRepr n rest hfo
      | str s =>
        have hd : dumpVal lvl (.str s) ++ rest = '"' :: (escapeString s ++ ('"' :: rest)) := by
          show ('"' :: (escapeString s ++ ['"'])) ++ rest = _
          rw [List.cons_append, List.append_assoc, List.singleton_append]
        rw [hd, scanOnce_quote]
        simp only [parseStringBody_escape s rest]
      | arr xs =>
        cases xs with
        | nil => exact rfl
        | cons x ys =>
          have hd : dumpVal lvl (.arr (.cons x ys)) ++ rest =
              '[' :: ((nlIndent (lvl + 1) ++ (dumpItems (lvl + 1) (.cons x ys) ++
                (nlIndent lvl ++ [']']))) ++ rest) := by
            show ('[' :: (nlIndent (lvl + 1) ++ (dumpItems (lvl + 1) (.cons x ys) ++
              (nlIndent lvl ++ [']'])))) ++ rest = _
            rw [List.cons_append]
          rw [hd]
          have hT : (nlIndent (lvl + 1) ++ (dumpItems (lvl + 1) (.cons x ys) ++
              (nlIndent lvl ++ [']']))) ++ rest =
              nlIndent (lvl + 1) ++ (dumpItems (lvl + 1) (.cons x ys) ++
                (nlIndent lvl ++ (']' :: rest))) := by
            rw [List.append_assoc, List.append_assoc, List.append_assoc, List.singleton_append]
          obtain ⟨c, cs, hceq, hcws, hc93, hc125⟩ := dumpItems_head (lvl + 1) x ys
          have hskip : skipWs ((nlIndent (lvl + 1) ++ (dumpItems (lvl + 1) (.cons x ys) ++
              (nlIndent lvl ++ [']']))) ++ rest) =
              c :: (cs ++ (nlIndent lvl ++ (']' :: rest))) := by
            rw [hT, skipWs_nlIndent, skipWs_dumpItems, hceq, List.cons_append]
          rw [scanOnce_arr2 F1 _ c (cs ++ (nlIndent lvl ++ (']' :: rest))) hskip]
          rw [if_neg hc93]
          have hback : c :: (cs ++ (nlIndent lvl ++ (']' :: rest))) =
              dumpItems (lvl + 1) (.cons x ys) ++ (nlIndent lvl ++ (']' :: rest)) := by
            rw [hceq, List.cons_append]
          rw [hback]
          have hwfl : pyWfList (.cons x ys) = true := by
            have heq2 : pyWf (.arr (.cons x ys)) = pyWfList (.cons x ys) := rfl
            rwa [heq2] at hwf
          have hfuel : sumFList (lvl + 1) (.cons x ys) ≤ F1 := by
            have := arrFuel_le lvl x ys
            omega
          have hloop := arrLoop_dump (F1 + 1) IH F1 (by omega) (lvl + 1) x ys lvl rest hwfl hfuel
          simp only [hloop]
      | obj kvs =>
        cases kvs with
        | nil => exact rfl
        | cons k v es =>
          have hd : dumpVal lvl (.obj (.cons k v es)) ++ rest =
              '\x7b' :: ((nlIndent (lvl + 1) ++ (dumpEntries (lvl + 1) (.cons k v es) ++
                (nlIndent lvl ++ ['\x7d']))) ++ rest) := by
            show ('\x7b' :: (nlIndent (lvl + 1) ++ (dumpEntries (lvl + 1) (.cons k v es) ++
              (nlIndent lvl ++ ['\x7d'])))) ++ rest = _
            rw [List.cons_append]
          rw [hd]
          have hT : (nlIndent (lvl + 1) ++ (dumpEntries (lvl + 1) (.cons k v es) ++
              (nlIndent lvl ++ ['\x7d']))) ++ rest =
              nlIndent (lvl + 1) ++ (dumpEntries (lvl + 1) (.cons k v es) ++
                (nlIndent lvl ++ ('\x7d' :: rest))) := by
            rw [List.append_assoc, List.append_assoc, List.append_assoc, List.singleton_append]
          have hskip : skipWs ((nlIndent (lvl + 1) ++ (dumpEntries (lvl + 1) (.cons k v es) ++
              (nlIndent lvl ++ ['\x7d']))) ++ rest) =
              '"' :: (objTail (lvl + 1) (.cons k v es) ++ (nlIndent lvl ++ ('\x7d' :: rest))) := by
            rw [hT, skipWs_nlIndent]
            rw [dumpEntries_objTail (lvl + 1) es k v, List.cons_append]
            exact skipWs_cons_not _ _ rfl
          rw [scanOnce_obj2 F1 _ '"' _ hskip]
          rw [if_neg (by decide : ¬ Char.toNat '"' = 125),
            if_pos (show Char.toNat '"' = 34 from rfl)]
          have hwfo : nodupKeys (objKeys (.cons k v es)) = true ∧ pyWfObj (.cons k v es) = true := by
            have heq2 : pyWf (.obj (.cons k v es)) =
              (nodupKeys (objKeys (.cons k v es)) && pyWfObj (.cons k v es)) := rfl
            rw [heq2, Bool.and_eq_true] at hwf
            exact hwf
          have hfuel : sumFObj (lvl + 1) (.cons k v es) ≤ F1 := by
            have := objFuel_le lvl k v es
            omega
          have hloop := objLoop_dump (F1 + 1) IH F1 (by omega) (lvl + 1) k v es lvl rest
            hwfo.2 hfuel
          simp only [hloop]
          rw [dictOfPairs_nodup _ hwfo.1]

/-- loads inverts dumps on representable values. -/
theorem loads_dumps (v : JVal) (h : pyWf v = true) : loads (dumps v) = some v := by
  unfold loads dumps
  have hskip : skipWs (dumpVal 0 v) = dumpVal 0 v := by
    have h2 := skipWs_dump 0 v []
    simpa using h2
  rw [hskip]
  have hscan : scanOnce ((dumpVal 0 v).length + 1) (dumpVal 0 v ++ []) = some (v, []) :=
    scanOnce_dump _ v 0 [] h trivial (Nat.le_refl _)
  rw [List.append_nil] at hscan
  simp only [hscan]
  rfl

/-! ### UTF-8 -/

/-- The UTF-8 chunk reader inverts the character encoder. -/
theorem utf8Chunk_encode (c : Char) (y : List Nat) :
    utf8Chunk (utf8EncodeChar c ++ y) = some (c, y) := by
  have hlt := charToNatLT c
  have hval := charValidRanges c
  by_cases h1 : c.toNat < 128
  · rw [show utf8EncodeChar c = [c.toNat] from by simp [utf8EncodeChar, h1],
      List.singleton_append]
    simp only [utf8Chunk]
    rw [if_pos h1, charOfNatToNat]
  · by_cases h2 : c.toNat < 2048
    · rw [show utf8EncodeChar c = [192 + c.toNat / 64, 128 + c.toNat % 64] from by
        simp [utf8EncodeChar, h1, h2]]
      show utf8Chunk ((192 + c.toNat / 64) :: ((128 + c.toNat % 64) :: y)) = _
      simp only [utf8Chunk]
      rw [if_neg (by omega), if_neg (by omega), if_pos (by omega)]
      rw [if_pos (by omega : 128 ≤ 128 + c.toNat % 64 ∧ 128 + c.toNat % 64 < 192)]
      rw [show (192 + c.toNat / 64 - 192) * 64 + (128 + c.toNat % 64 - 128) = c.toNat from by
        omega]
      rw [if_pos (by omega : 128 ≤ c.toNat), charOfNatToNat]
    · by_cases h3 : c.toNat < 65536
      · rw [show utf8EncodeChar c =
          [224 + c.toNat / 4096, 128 + c.toNat / 64 % 64, 128 + c.toNat % 64] from by
            simp [utf8EncodeChar, h1, h2, h3]]
        show utf8Chunk ((224 + c.toNat / 4096) ::
          ((128 + c.toNat / 64 % 64) :: ((128 + c.toNat % 64) :: y))) = _
        simp only [utf8Chunk]
        rw [if_neg (by omega), if_neg (by omega), if_neg (by omega), if_pos (by omega)]
        rw [if_pos (by omega : (128 ≤ 128 + c.toNat / 64 % 64 ∧ 128 + c.toNat / 64 % 64 < 192) ∧
          (128 ≤ 128 + c.toNat % 64 ∧ 128 + c.toNat % 64 < 192))]
        rw [show (224 + c.toNat / 4096 - 224) * 4096 + (128 + c.toNat / 64 % 64 - 128) * 64 +
          (128 + c.toNat % 64 - 128) = c.toNat from by omega]
        rw [if_pos (by omega : 2048 ≤ c.toNat ∧ ¬(55296 ≤ c.toNat ∧ c.toNat ≤ 57343))]
        rw [charOfNatToNat]
      · rw [show utf8EncodeChar c =
          [240 + c.toNat / 262144, 128 + c.toNat / 4096 % 64,
           128 + c.toNat / 64 % 64, 128 + c.toNat % 64] from by
            simp [utf8EncodeChar, h1, h2, h3]]
        show utf8Chunk ((240 + c.toNat / 262144) :: ((128 + c.toNat / 4096 % 64) ::
          ((128 + c.toNat / 64 % 64) :: ((128 + c.toNat % 64) :: y)))) = _
        simp only [utf8Chunk]
        rw [if_neg (by omega), if_neg (by omega), if_neg (by omega), if_neg (by omega),
          if_pos (by omega)]
        rw [if_pos (by omega : (128 ≤ 128 + c.toNat / 4096 % 64 ∧ 128 + c.toNat / 4096 % 64 < 192) ∧
          (128 ≤ 128 + c.toNat / 64 % 64 ∧ 128 + c.toNat / 64 % 64 < 192) ∧
          (128 ≤ 128 + c.toNat % 64 ∧ 128 + c.toNat % 64 < 192))]
        rw [show (240 + c.toNat / 262144 - 240) * 262144 + (128 + c.toNat / 4096 % 64 - 128) * 4096 +
          (128 + c.toNat / 64 % 64 - 128) * 64 + (128 + c.toNat % 64 - 128) = c.toNat from by omega]
        rw [if_pos (by omega : 65536 ≤ c.toNat ∧ c.toNat < 1114112)]
        rw [charOfNatToNat]

/-- A character encodes to at least one byte. -/
theorem utf8EncodeChar_ne_nil (c : Char) : utf8EncodeChar c ≠ [] := by
  intro h
  have h2 := utf8Chunk_encode c []
  rw [h] at h2
  exact Option.noConfusion h2

/-- Encoding cannot shrink a string. -/
theorem utf8Encode_length_ge : ∀ s : List Char, s.length ≤ (utf8Encode s).length := by
  intro s
  induction s with
  | nil => simp
  | cons c r ih =>
    show r.length + 1 ≤ (utf8EncodeChar c ++ utf8Encode r).length
    rw [List.length_append]
    have h1 : 0 < (utf8EncodeChar c).length := List.length_pos.mpr (utf8EncodeChar_ne_nil c)
    omega

/-- Step of the UTF-8 loop on a successful chunk. -/
theorem utf8Loop_step (f : Nat) (b : Nat) (bs : List Nat) (ch : Char) (rest : List Nat)
    (h : utf8Chunk (b :: bs) = some (ch, rest)) :
    utf8DecodeLoop (f + 1) (b :: bs) = consCh ch (utf8DecodeLoop f rest) := by
  simp only [utf8DecodeLoop, h]

/-- The UTF-8 loop inverts the encoder, given one unit of fuel per character
plus one. -/
theorem utf8Loop_encode : ∀ s fuel, s.length + 1 ≤ fuel →
    utf8DecodeLoop fuel (utf8Encode s) = some s := by
  intro s
  induction s with
  | nil =>
    intro fuel h
    cases fuel with
    | zero => omega
    | succ f => rfl
  | cons c r ih =>
    intro fuel h
    cases fuel with
    | zero => omega
    | succ f =>
      obtain ⟨b, bs, hbe⟩ : ∃ b bs, utf8EncodeChar c = b :: bs := by
        cases he : utf8EncodeChar c with
        | nil => exact absurd he (utf8EncodeChar_ne_nil c)
        | cons b bs => exact ⟨b, bs, rfl⟩
      rw [show utf8Encode (c :: r) = utf8EncodeChar c ++ utf8Encode r from rfl, hbe,
        List.cons_append]
      have hchunk : utf8Chunk (b :: (bs ++ utf8Encode r)) = some (c, utf8Encode r) := by
        rw [← List.cons_append, ← hbe]
        exact utf8Chunk_encode c _
      rw [utf8Loop_step f _ _ c _ hchunk]
      rw [ih f (by simp at h; omega)]
      rfl

/-- UTF-8 decoding inverts UTF-8 encoding. -/
theorem utf8_roundtrip (s : List Char) : utf8Decode (utf8Encode s) = some s := by
  unfold utf8Decode
  apply utf8Loop_encode
  have h := utf8Encode_length_ge s
  omega

/-- Every byte the character encoder produces is below 256. -/
theorem utf8EncodeChar_lt256 (c : Char) : ∀ b ∈ utf8EncodeChar c, b < 256 := by
  have hlt := charToNatLT c
  intro b hb
  by_cases h1 : c.toNat < 128
  · rw [show utf8EncodeChar c = [c.toNat] from by simp [utf8EncodeChar, h1]] at hb
    simp at hb
    omega
  · by_cases h2 : c.toNat < 2048
    · rw [show utf8EncodeChar c = [192 + c.toNat / 64, 128 + c.toNat % 64] from by
        simp [utf8EncodeChar, h1, h2]] at hb
      simp at hb
      rcases hb with rfl | rfl <;> omega
    · by_cases h3 : c.toNat < 65536
      · rw [show utf8EncodeChar c =
          [224 + c.toNat / 4096, 128 + c.toNat / 64 % 64, 128 + c.toNat % 64] from by
            simp [utf8EncodeChar, h1, h2, h3]] at hb
        simp at hb
        rcases hb with rfl | rfl | rfl <;> omega
      · rw [show utf8EncodeChar c =
          [240 + c.toNat / 262144, 128 + c.toNat / 4096 % 64,
           128 + c.toNat / 64 % 64, 128 + c.toNat % 64] from by
            simp [utf8EncodeChar, h1, h2, h3]] at hb
        simp at hb
        rcases hb with rfl | rfl | rfl | rfl <;> omega

/-- Every byte of a UTF-8 encoding is below 256. -/
theorem utf8Encode_lt256 : ∀ s, ∀ b ∈ utf8Encode s, b < 256 := by
  intro s
  induction s with
  | nil => intro b hb; simp [utf8Encode] at hb
  | cons c r ih =>
    intro b hb
    rw [show utf8Encode (c :: r) = utf8EncodeChar c ++ utf8Encode r from rfl] at hb
    rcases List.mem_append.mp hb with hm | hm
    · exact utf8EncodeChar_lt256 c b hm
    · exact ih b hm

/-! ### URL-safe base64 -/

/-- Every six-bit value maps into the alphabet. -/
theorem b64Char_mem64 : ∀ n, n < 64 → b64Char n ∈ b64Chars := by decide

/-- The index function inverts the alphabet map on six-bit values. -/
theorem b64Index_b64Char : ∀ n, n < 64 → b64Index (b64Char n) = some n := by decide

/-- No six-bit value maps to the padding character. -/
theorem b64Char_ne_eq : ∀ n, n < 64 → ¬ (b64Char n = '=') := by decide

/-- The padding character is not in the alphabet. -/
theorem eq_not_mem_b64Chars : ('=' : Char) ∉ b64Chars := by decide

/-- The base64 encoding of a byte string splits into alphabet characters
followed by zero, one or two padding characters, with total length a
multiple of four. -/
theorem b64Encode_split : ∀ n bs, bs.length ≤ n → (∀ b ∈ bs, b < 256) → ∃ main pad,
    b64Encode bs = main ++ pad ∧ (∀ c ∈ main, c ∈ b64Chars) ∧
    (pad = [] ∨ pad = ['='] ∨ pad = ['=', '=']) ∧ (main.length + pad.length) % 4 = 0 := by
  intro n
  induction n with
  | zero =>
    intro bs hlen _
    have hb : bs = [] := List.eq_nil_of_length_eq_zero (by omega)
    subst hb
    exact ⟨[], [], rfl, by simp, Or.inl rfl, rfl⟩
  | succ m ih =>
    intro bs hlen hlt
    match bs with
    | [] => exact ⟨[], [], rfl, by simp, Or.inl rfl, rfl⟩
    | [a] =>
      have ha : a < 256 := hlt a (by simp)
      refine ⟨[b64Char (a / 4), b64Char (a % 4 * 16)], ['=', '='], rfl, ?_,
        Or.inr (Or.inr rfl), by simp⟩
      intro c hc
      simp only [List.mem_cons, List.not_mem_nil, or_false] at hc
      rcases hc with rfl | rfl
      · exact b64Char_mem64 _ (by omega)
      · exact b64Char_mem64 _ (by omega)
    | [a, b] =>
      have ha : a < 256 := hlt a (by simp)
      have hb : b < 256 := hlt b (by simp)
      refine ⟨[b64Char (a / 4), b64Char (a % 4 * 16 + b / 16), b64Char (b % 16 * 4)], ['='],
        rfl, ?_, Or.inr (Or.inl rfl), by simp⟩
      intro c hc
      simp only [List.mem_cons, List.not_mem_nil, or_false] at hc
      rcases hc with rfl | rfl | rfl
      · exact b64Char_mem64 _ (by omega)
      · exact b64Char_mem64 _ (by omega)
      · exact b64Char_mem64 _ (by omega)
    | a :: b :: c :: r =>
      have ha : a < 256 := hlt a (by simp)
      have hb : b < 256 := hlt b (by simp)
      have hc : c < 256 := hlt c (by simp)
      obtain ⟨main, pad, heq, hmem, hpad, hmod⟩ := ih r
        (by simp at hlen; omega) (fun x hx => hlt x (by simp [hx]))
      refine ⟨b64Char (a / 4) :: b64Char (a % 4 * 16 + b / 16) ::
        b64Char (b % 16 * 4 + c / 64) :: b64Char (c % 64) :: main, pad, ?_, ?_, hpad, ?_⟩
      · show b64Char (a / 4) :: b64Char (a % 4 * 16 + b / 16) ::
          b64Char (b % 16 * 4 + c / 64) :: b64Char (c % 64) :: b64Encode r = _
        rw [heq]
        rfl
      · intro x hx
        simp only [List.mem_cons] at hx
        rcases hx with rfl | rfl | rfl | rfl | hx
        · exact b64Char_mem64 _ (by omega)
        · exact b64Char_mem64 _ (by omega)
        · exact b64Char_mem64 _ (by omega)
        · exact b64Char_mem64 _ (by omega)
        · exact hmem x hx
      · simp only [List.length_cons]
        omega

/-- dropWhile skips a prefix on which the predicate holds. -/
theorem dropWhile_append_all (p : Char → Bool) : ∀ l1 l2, (∀ c ∈ l1, p c = true) →
    List.dropWhile p (l1 ++ l2) = List.dropWhile p l2 := by
  intro l1
  induction l1 with
  | nil => intro l2 _; rfl
  | cons c r ih =>
    intro l2 h
    rw [List.cons_append, List.dropWhile_cons_of_pos (h c (by simp))]
    exact ih l2 (fun x hx => h x (by simp [hx]))

/-- Stripping trailing padding from alphabet characters plus padding gives
back the alphabet characters. -/
theorem rstripEq_mainpad : ∀ main pad, (∀ c ∈ main, c ∈ b64Chars) →
    (pad = [] ∨ pad = ['='] ∨ pad = ['=', '=']) → rstripEq (main ++ pad) = main := by
  intro main pad hmem hpad
  unfold rstripEq
  rw [List.reverse_append]
  rw [dropWhile_append_all _ pad.reverse main.reverse ?hall]
  case hall =>
    intro c hc
    rw [List.mem_reverse] at hc
    rcases hpad with rfl | rfl | rfl
    · simp at hc
    · simp only [List.mem_singleton] at hc
      subst hc
      simp
    · simp only [List.mem_cons, List.not_mem_nil, or_false] at hc
      rcases hc with rfl | rfl <;> simp
  have hmain : List.dropWhile (fun c => decide (c = '=')) main.reverse = main.reverse := by
    cases hrev : main.reverse with
    | nil => rfl
    | cons c t =>
      have hcmem : c ∈ main := by
        rw [← List.mem_reverse, hrev]
        simp
      rw [List.dropWhile_cons_of_neg]
      simp only [decide_eq_true_eq]
      intro hceq
      subst hceq
      exact eq_not_mem_b64Chars (hmem _ hcmem)
  rw [hmain, List.reverse_reverse]

/-- Restoring padding after stripping it reproduces the base64 encoding. -/
theorem restorePad_rstrip (bs : List Nat) (h : ∀ b ∈ bs, b < 256) :
    restorePad (rstripEq (b64Encode bs)) = b64Encode bs := by
  obtain ⟨main, pad, heq, hmem, hpad, hmod⟩ :=
    b64Encode_split bs.length bs (Nat.le_refl _) h
  rw [heq, rstripEq_mainpad main pad hmem hpad]
  unfold restorePad
  have hrep : List.replicate ((4 - main.length % 4) % 4) '=' = pad := by
    rcases hpad with rfl | rfl | rfl
    · simp only [List.length_nil] at hmod
      rw [show (4 - main.length % 4) % 4 = 0 from by omega]
      rfl
    · simp only [List.length_singleton] at hmod
      rw [show (4 - main.length % 4) % 4 = 1 from by omega]
      rfl
    · simp only [List.length_cons, List.length_nil] at hmod
      rw [show (4 - main.length % 4) % 4 = 2 from by omega]
      rfl
  rw [hrep]

/-- base64 decoding inverts base64 encoding on byte strings. -/
theorem b64_roundtrip : ∀ n bs, bs.length ≤ n → (∀ b ∈ bs, b < 256) →
    b64Decode (b64Encode bs) = some bs := by
  intro n
  induction n with
  | zero =>
    intro bs hlen _
    have hb : bs = [] := List.eq_nil_of_length_eq_zero (by omega)
    subst hb
    rfl
  | succ m ih =>
    intro bs hlen hlt
    match bs with
    | [] => rfl
    | [a] =>
      have ha : a < 256 := hlt a (by simp)
      show b64Decode [b64Char (a / 4), b64Char (a % 4 * 16), '=', '='] = some [a]
      simp only [b64Decode, b64Index_b64Char (a / 4) (by omega),
        b64Index_b64Char (a % 4 * 16) (by omega), if_pos rfl]
      rw [show a / 4 * 4 + a % 4 * 16 / 16 = a from by omega]
      simp
    | [a, b] =>
      have ha : a < 256 := hlt a (by simp)
      have hb : b < 256 := hlt b (by simp)
      show b64Decode [b64Char (a / 4), b64Char (a % 4 * 16 + b / 16), b64Char (b % 16 * 4), '=']
        = some [a, b]
      simp only [b64Decode, b64Index_b64Char (a / 4) (by omega),
        b64Index_b64Char (a % 4 * 16 + b / 16) (by omega),
        b64Index_b64Char (b % 16 * 4) (by omega)]
      rw [if_neg (b64Char_ne_eq (b % 16 * 4) (by omega)), if_pos trivial, if_pos trivial]
      rw [show a / 4 * 4 + (a % 4 * 16 + b / 16) / 16 = a from by omega,
        show (a % 4 * 16 + b / 16) % 16 * 16 + b % 16 * 4 / 4 = b from by omega]
    | a :: b :: c :: r =>
      have ha : a < 256 := hlt a (by simp)
      have hb : b < 256 := hlt b (by simp)
      have hc : c < 256 := hlt c (by simp)
      have hrec := ih r (by simp at hlen; omega) (fun x hx => hlt x (by simp [hx]))
      show b64Decode (b64Char (a / 4) :: b64Char (a % 4 * 16 + b / 16) ::
        b64Char (b % 16 * 4 + c / 64) :: b64Char (c % 64) :: b64Encode r) = _
      simp only [b64Decode, b64Index_b64Char (a / 4) (by omega),
        b64Index_b64Char (a % 4 * 16 + b / 16) (by omega),
        b64Index_b64Char (b % 16 * 4 + c / 64) (by omega),
        b64Index_b64Char (c % 64) (by omega), hrec]
      rw [if_neg (b64Char_ne_eq (b % 16 * 4 + c / 64) (by omega)),
        if_neg (b64Char_ne_eq (c % 64) (by omega))]
      rw [show a / 4 * 4 + (a % 4 * 16 + b / 16) / 16 = a from by omega,
        show (a % 4 * 16 + b / 16) % 16 * 16 + (b % 16 * 4 + c / 64) / 4 = b from by omega,
        show (b % 16 * 4 + c / 64) % 4 * 64 + c % 64 = c from by omega]

/-! ### The zlib container -/

/-- A stored-block stream is at least as long as its data. -/
theorem deflateChunks_length_ge : ∀ dfuel data, data.length < dfuel →
    data.length ≤ (deflateChunks dfuel data).length := by
  intro dfuel
  induction dfuel with
  | zero => intro data h; omega
  | succ d ih =>
    intro data h
    by_cases hsmall : data.length ≤ 65535
    · rw [show deflateChunks (d + 1) data =
        1 :: (le16 data.length ++ (le16 (65535 - data.length) ++ data)) from by
          simp [deflateChunks, hsmall]]
      simp only [List.length_cons, List.length_append, le16, List.length_nil]
      omega
    · rw [show deflateChunks (d + 1) data =
        0 :: (le16 65535 ++ (le16 0 ++ (data.take 65535 ++ deflateChunks d (data.drop 65535))))
        from by simp [deflateChunks, hsmall]]
      have hrec := ih (data.drop 65535) (by rw [List.length_drop]; omega)
      rw [List.length_drop] at hrec
      simp only [List.length_cons, List.length_append, le16, List.length_nil, List.length_take]
      omega

/-- Inflating a stored-block stream returns the stored data and the rest of
the input, given at least as much fuel as the deflate recursion used. -/
theorem inflateBlocks_deflate : ∀ dfuel ifuel data extra, data.length < dfuel → dfuel ≤ ifuel →
    inflateBlocks ifuel (deflateChunks dfuel data ++ extra) = some (data, extra) := by
  intro dfuel
  induction dfuel with
  | zero => intro ifuel data extra h _; omega
  | succ d ih =>
    intro ifuel data extra hlen hfi
    cases ifuel with
    | zero => omega
    | succ i =>
      by_cases hsmall : data.length ≤ 65535
      · rw [show deflateChunks (d + 1) data =
          1 :: (le16 data.length ++ (le16 (65535 - data.length) ++ data)) from by
            simp [deflateChunks, hsmall]]
        show inflateBlocks (i + 1) (1 :: ((data.length % 256) :: ((data.length / 256 % 256) ::
          (((65535 - data.length) % 256) :: (((65535 - data.length) / 256 % 256) ::
            (data ++ extra)))))) = some (data, extra)
        simp only [inflateBlocks]
        have hl : data.length % 256 + 256 * (data.length / 256 % 256) = data.length := by omega
        rw [hl]
        rw [if_pos (by omega : (65535 - data.length) % 256 +
          256 * ((65535 - data.length) / 256 % 256) = 65535 - data.length)]
        rw [if_pos (by rw [List.length_append]; omega : data.length ≤ (data ++ extra).length)]
        rw [if_pos trivial]
        rw [show List.take data.length (data ++ extra) = data from List.take_left data extra,
          show List.drop data.length (data ++ extra) = extra from List.drop_left data extra]
      · rw [show deflateChunks (d + 1) data =
          0 :: (le16 65535 ++ (le16 0 ++ (data.take 65535 ++ deflateChunks d (data.drop 65535))))
          from by simp [deflateChunks, hsmall]]
        show inflateBlocks (i + 1) (0 :: (255 :: (255 :: (0 :: (0 ::
          ((data.take 65535 ++ deflateChunks d (data.drop 65535)) ++ extra)))))) =
          some (data, extra)
        have htlen : (data.take 65535).length = 65535 := by
          rw [List.length_take]
          omega
        have hrec := ih i (data.drop 65535) extra (by rw [List.length_drop]; omega) (by omega)
        simp only [inflateBlocks]
        rw [if_pos trivial]
        rw [if_pos (by
          rw [List.length_append, List.length_append, htlen]
          omega : 65535 ≤ ((data.take 65535 ++ deflateChunks d (data.drop 65535)) ++ extra).length)]
        rw [if_neg (by omega : ¬ (0 : Nat) = 1), if_pos trivial]
        rw [List.append_assoc]
        set T := data.take 65535 with hT
        set D := deflateChunks d (data.drop 65535) with hD
        rw [show (255 : Nat) + 256 * 255 = 65535 from by norm_num]
        rw [← htlen]
        rw [List.take_left T (D ++ extra), List.drop_left T (D ++ extra)]
        rw [hD]
        simp only [hrec]
        rw [hT, List.take_append_drop]

/-- The four bytes of a big-endian 32-bit value. -/
theorem be32_length (n : Nat) : (be32 n).length = 4 := rfl

/-- Every byte of a big-endian 32-bit value is below 256. -/
theorem be32_lt256 (n : Nat) : ∀ b ∈ be32 n, b < 256 := by
  intro b hb
  simp only [be32, List.mem_cons, List.not_mem_nil, or_false] at hb
  rcases hb with rfl | rfl | rfl | rfl <;> omega

/-- Reading back the four big-endian bytes of a value below 2^32 gives the
value. -/
theorem beVal_be32 (n : Nat) (h : n < 4294967296) : beVal (be32 n) = n := by
  show (((0 * 256 + n / 16777216 % 256) * 256 + n / 65536 % 256) * 256 + n / 256 % 256) * 256 +
    n % 256 = n
  omega

/-- Every byte of a stored-block stream over bytes is a byte. -/
theorem deflateChunks_lt256 : ∀ dfuel data, (∀ b ∈ data, b < 256) →
    ∀ b ∈ deflateChunks dfuel data, b < 256 := by
  intro dfuel
  induction dfuel with
  | zero => intro data _ b hb; simp [deflateChunks] at hb
  | succ d ih =>
    intro data h b hb
    by_cases hsmall : data.length ≤ 65535
    · rw [show deflateChunks (d + 1) data =
        1 :: (le16 data.length ++ (le16 (65535 - data.length) ++ data)) from by
          simp [deflateChunks, hsmall]] at hb
      simp only [le16, List.mem_cons, List.mem_append, List.not_mem_nil, or_false] at hb
      rcases hb with rfl | (rfl | rfl) | (rfl | rfl) | hm
      · omega
      · omega
      · omega
      · omega
      · omega
      · exact h b hm
    · rw [show deflateChunks (d + 1) data =
        0 :: (le16 65535 ++ (le16 0 ++ (data.take 65535 ++ deflateChunks d (data.drop 65535))))
        from by simp [deflateChunks, hsmall]] at hb
      simp only [le16, List.mem_cons, List.mem_append, List.not_mem_nil, or_false] at hb
      rcases hb with rfl | (rfl | rfl) | (rfl | rfl) | hm | hm
      · omega
      · omega
      · omega
      · omega
      · omega
      · exact h b (List.take_subset 65535 data hm)
      · exact ih (data.drop 65535) (fun x hx => h x (List.drop_subset 65535 data hx)) b hm

/-- Every byte the model compressor produces is a byte. -/
theorem zlibCompress_lt256 (data : List Nat) (h : ∀ b ∈ data, b < 256) :
    ∀ b ∈ zlibCompress data, b < 256 := by
  intro b hb
  simp only [zlibCompress, List.mem_cons, List.mem_append] at hb
  rcases hb with rfl | rfl | hm | hm
  · omega
  · omega
  · exact deflateChunks_lt256 (data.length + 1) data h b hm
  · exact be32_lt256 _ b hm

/-- The model decompressor inverts the model compressor. -/
theorem zlib_roundtrip (data : List Nat) : zlibDecompress (zlibCompress data) = some data := by
  show zlibDecompress (120 :: 156 :: (deflateStored data ++ be32 (adler32 data))) = some data
  simp only [zlibDecompress]
  rw [if_pos (by norm_num)]
  have hge := deflateChunks_length_ge (data.length + 1) data (by omega)
  have hinf := inflateBlocks_deflate (data.length + 1)
    ((120 :: 156 :: (deflateStored data ++ be32 (adler32 data))).length + 1)
    data (be32 (adler32 data)) (by omega)
    (by
      simp only [List.length_cons, List.length_append, be32_length]
      show data.length + 1 ≤ (deflateChunks (data.length + 1) data).length + 4 + 1 + 1 + 1
      omega)
  rw [show deflateStored data = deflateChunks (data.length + 1) data from rfl]
  simp only [List.length_cons, List.length_append] at hinf ⊢
  rw [show deflateStored data = deflateChunks (data.length + 1) data from rfl] at hinf
  simp only [hinf]
  simp

/-! ### Assembling the encoder -/

/-- When the serialized length fits in four bytes, encode_config returns the
stripped base64 encoding of the length header followed by the compressed
stream. -/
theorem encode_config_eq (config : JVal)
    (h : (utf8Encode (dumps config)).length < 4294967296) :
    encode_config config = some (rstripEq (b64Encode
      (be32 (utf8Encode (dumps config)).length ++
        zlibCompress (utf8Encode (dumps config))))) := by
  unfold encode_config toBytesBE4
  rw [if_pos h]

/-- When the serialized length does not fit in four bytes, encode_config
raises (returns none). -/
theorem encode_config_none (config : JVal)
    (h : 4294967296 ≤ (utf8Encode (dumps config)).length) :
    encode_config config = none := by
  unfold encode_config toBytesBE4
  rw [if_neg (by omega)]

/-- Every byte fed to the base64 encoder by encode_config is a byte. -/
theorem header_stream_lt256 (config : JVal) :
    ∀ b ∈ be32 (utf8Encode (dumps config)).length ++
      zlibCompress (utf8Encode (dumps config)), b < 256 := by
  intro b hb
  rw [List.mem_append] at hb
  rcases hb with hb | hb
  · exact be32_lt256 _ b hb
  · exact zlibCompress_lt256 _ (utf8Encode_lt256 (dumps config)) b hb

/-- The decoder pipeline recovers the config from the token encode_config
builds, for well-formed configs whose serialization fits in four bytes. -/
theorem decodePipeline_token (config : JVal) (hwf : pyWf config = true) :
    decodePipeline (rstripEq (b64Encode
      (be32 (utf8Encode (dumps config)).length ++
        zlibCompress (utf8Encode (dumps config))))) = some config := by
  have hall := header_stream_lt256 config
  have h1 := restorePad_rstrip _ hall
  have h2 := b64_roundtrip _ _ (Nat.le_refl
    (be32 (utf8Encode (dumps config)).length ++
      zlibCompress (utf8Encode (dumps config))).length) hall
  have h3 : (be32 (utf8Encode (dumps config)).length ++
      zlibCompress (utf8Encode (dumps config))).drop 4 =
      zlibCompress (utf8Encode (dumps config)) := by
    rw [← be32_length (utf8Encode (dumps config)).length, List.drop_left]
  have h4 := zlib_roundtrip (utf8Encode (dumps config))
  have h5 := utf8_roundtrip (dumps config)
  have h6 := loads_dumps config hwf
  simp only [decodePipeline, h1, h2, h3, h4, h5, h6]

/-! ### A value whose serialization overflows the length prefix -/

/-- The letter a escapes to itself. -/
theorem escapeChar_a : escapeChar 'a' = ['a'] := rfl

/-- A run of letters a escapes to itself. -/
theorem escapeString_rep : ∀ n, escapeString (List.replicate n 'a') = List.replicate n 'a' := by
  intro n
  induction n with
  | zero => rfl
  | succ m ih =>
    rw [List.replicate_succ]
    show escapeChar 'a' ++ escapeString (List.replicate m 'a') = 'a' :: List.replicate m 'a'
    rw [escapeChar_a, ih]
    rfl

/-- UTF-8 encoding distributes over concatenation. -/
theorem utf8Encode_append : ∀ s t, utf8Encode (s ++ t) = utf8Encode s ++ utf8Encode t := by
  intro s t
  induction s with
  | nil => rfl
  | cons c r ih =>
    show utf8EncodeChar c ++ utf8Encode (r ++ t) = (utf8EncodeChar c ++ utf8Encode r) ++ _
    rw [ih, List.append_assoc]

/-- A run of letters a UTF-8-encodes to the same number of bytes 97. -/
theorem utf8_rep : ∀ n, utf8Encode (List.replicate n 'a') = List.replicate n 97 := by
  intro n
  induction n with
  | zero => rfl
  | succ m ih =>
    rw [List.replicate_succ, List.replicate_succ]
    show utf8EncodeChar 'a' ++ utf8Encode (List.replicate m 'a') = 97 :: List.replicate m 97
    rw [ih]
    rfl

/-- The canonical serialization of the huge string value. -/
theorem dumps_hugeVal : dumps hugeVal = '"' :: (List.replicate 4294967296 'a' ++ ['"']) := by
  show '"' :: (escapeString (List.replicate 4294967296 'a') ++ ['"']) = _
  rw [escapeString_rep]

/-- Byte length of a quoted run of n letters a. -/
theorem utf8_len_quoted (n : Nat) :
    (utf8Encode ('"' :: (List.replicate n 'a' ++ ['"']))).length = n + 2 := by
  rw [show utf8Encode ('"' :: (List.replicate n 'a' ++ ['"'])) =
    utf8EncodeChar '"' ++ utf8Encode (List.replicate n 'a' ++ ['"']) from rfl]
  rw [utf8Encode_append, utf8_rep]
  rw [show utf8EncodeChar '"' = [34] from rfl, show utf8Encode ['"'] = [34] from rfl]
  simp only [List.length_append, List.length_cons, List.length_nil, List.length_replicate]
  omega

/-- The serialized byte length of the huge string value exceeds 2^32 - 1. -/
theorem hugeVal_len : (utf8Encode (dumps hugeVal)).length = 4294967298 := by
  rw [dumps_hugeVal, utf8_len_quoted]

/-! ### The claims -/

/-- C1: round-trip — for every well-formed JSON value, the inverse pipeline
(restore = padding, URL-safe base64-decode, drop the first 4 bytes,
zlib-decompress, parse the UTF-8 text as JSON) applied to the token of
encode_config yields the original value. -/
theorem spec_C1 (config : JVal) (t : List Char) (hwf : pyWf config = true)
    (henc : encode_config config = some t) : decodePipeline t = some config := by
  by_cases h : (utf8Encode (dumps config)).length < 4294967296
  · rw [encode_config_eq config h] at henc
    injection henc with ht
    subst ht
    exact decodePipeline_token config hwf
  · rw [encode_config_none config (by omega)] at henc
    exact Option.noConfusion henc

/-- The round-trip at the one-entry object mapping a to 1. -/
theorem spec_C1_witness :
    pyWf (JVal.obj (JObj.cons ['a'] (JVal.int 1) JObj.nil)) = true ∧
    encode_config (JVal.obj (JObj.cons ['a'] (JVal.int 1) JObj.nil)) =
      some (("AAAADnicAQ4A8f97CiAgICAiYSI6IDEKfRPTAr0").toList) ∧
    decodePipeline (("AAAADnicAQ4A8f97CiAgICAiYSI6IDEKfRPTAr0").toList) =
      some (JVal.obj (JObj.cons ['a'] (JVal.int 1) JObj.nil)) :=
  ⟨rfl, rfl, spec_C1 _ _ rfl rfl⟩

/-- C2: bit-exact token format — whenever the serialized length fits in four
bytes, encode_config returns exactly the spec's formula: the padding-stripped
URL-safe base64 encoding of BE32 of the canonical byte length followed by the
zlib-container compression of the canonical bytes. -/
theorem spec_C2 (config : JVal)
    (h : (utf8Encode (dumps config)).length < 4294967296) :
    encode_config config = some (tokenFormula config) := by
  rw [encode_config_eq config h]
  rfl

/-- The token formula at the empty object. -/
theorem spec_C2_witness :
    (utf8Encode (dumps (JVal.obj JObj.nil))).length < 4294967296 ∧
    encode_config (JVal.obj JObj.nil) = some (tokenFormula (JVal.obj JObj.nil)) :=
  ⟨by decide, spec_C2 (JVal.obj JObj.nil) (by decide)⟩

/-- C3: length-prefix correctness — for every config that encodes to a token,
the first four bytes of the base64-decoded token, read big-endian, equal the
UTF-8 byte length of the canonical serialization. -/
theorem spec_C3 (config : JVal) (t : List Char)
    (henc : encode_config config = some t) :
    Option.map (fun bs => beVal (bs.take 4)) (b64Decode (restorePad t)) =
      some (utf8Encode (dumps config)).length := by
  by_cases h : (utf8Encode (dumps config)).length < 4294967296
  · rw [encode_config_eq config h] at henc
    injection henc with ht
    subst ht
    rw [restorePad_rstrip _ (header_stream_lt256 config),
      b64_roundtrip _ _ (Nat.le_refl (be32 (utf8Encode (dumps config)).length ++
        zlibCompress (utf8Encode (dumps config))).length) (header_stream_lt256 config)]
    show some (beVal ((be32 (utf8Encode (dumps config)).length ++
      zlibCompress (utf8Encode (dumps config))).take 4)) = _
    rw [show (be32 (utf8Encode (dumps config)).length ++
      zlibCompress (utf8Encode (dumps config))).take 4 =
        be32 (utf8Encode (dumps config)).length from by
      rw [← be32_length (utf8Encode (dumps config)).length, List.take_left]]
    rw [beVal_be32 _ h]
  · rw [encode_config_none config (by omega)] at henc
    exact Option.noConfusion henc

/-- The length prefix of the empty-object token. -/
theorem spec_C3_witness :
    encode_config (JVal.obj JObj.nil) = some (("AAAAAnicAQIA_f97fQF1APk").toList) ∧
    Option.map (fun bs => beVal (bs.take 4))
        (b64Decode (restorePad (("AAAAAnicAQIA_f97fQF1APk").toList))) =
      some (utf8Encode (dumps (JVal.obj JObj.nil))).length :=
  ⟨rfl, spec_C3 _ _ rfl⟩

/-- C4: output alphabet — every token encode_config returns consists only of
URL-safe base64 alphabet characters and contains no = anywhere. -/
theorem spec_C4 (config : JVal) (t : List Char)
    (henc : encode_config config = some t) : urlSafeTok t = true := by
  by_cases h : (utf8Encode (dumps config)).length < 4294967296
  · rw [encode_config_eq config h] at henc
    injection henc with ht
    subst ht
    obtain ⟨main, pad, heq, hmem, hpad, _⟩ :=
      b64Encode_split (be32 (utf8Encode (dumps config)).length ++
          zlibCompress (utf8Encode (dumps config))).length _
        (Nat.le_refl _) (header_stream_lt256 config)
    rw [heq, rstripEq_mainpad main pad hmem hpad]
    rw [urlSafeTok, List.all_eq_true]
    intro c hc
    simp only [decide_eq_true_eq]
    refine ⟨hmem c hc, ?_⟩
    intro hceq
    exact eq_not_mem_b64Chars (hceq ▸ hmem c hc)
  · rw [encode_config_none config (by omega)] at henc
    exact Option.noConfusion henc

/-- The alphabet property at the one-entry object mapping a to 1. -/
theorem spec_C4_witness :
    encode_config (JVal.obj (JObj.cons ['a'] (JVal.int 1) JObj.nil)) =
      some (("AAAADnicAQ4A8f97CiAgICAiYSI6IDEKfRPTAr0").toList) ∧
    urlSafeTok (("AAAADnicAQ4A8f97CiAgICAiYSI6IDEKfRPTAr0").toList) = true :=
  ⟨rfl, spec_C4 (JVal.obj (JObj.cons ['a'] (JVal.int 1) JObj.nil)) _ rfl⟩

/-- C5: determinism — encode_config is a function of the config value alone:
two calls on deeply equal configs return the same token. -/
theorem spec_C5 (c1 c2 : JVal) (h : c1 = c2) :
    encode_config c1 = encode_config c2 := by
  rw [h]

/-- Determinism at a concrete integer config. -/
theorem spec_C5_witness :
    JVal.int 7 = JVal.int 7 ∧ encode_config (JVal.int 7) = encode_config (JVal.int 7) :=
  ⟨rfl, spec_C5 (JVal.int 7) (JVal.int 7) rfl⟩

/-- C6 (corrected): length overflow — when the canonical serialization does
not fit in four bytes, int.to_bytes raises OverflowError and encode_config
returns no token at all; the length is never silently wrapped modulo 2^32. -/
theorem spec_C6 (config : JVal)
    (h : 4294967296 ≤ (utf8Encode (dumps config)).length) :
    encode_config config = none :=
  encode_config_none config h

/-- A string of 2^32 letters a serializes to more than 2^32 - 1 bytes, yet
encode_config returns no token, against the claimed silent wrap-around. -/
theorem spec_C6_counterexample :
    4294967295 < (utf8Encode (dumps hugeVal)).length ∧ encode_config hugeVal = none := by
  refine ⟨by rw [hugeVal_len]; omega, ?_⟩
  exact encode_config_none hugeVal (by rw [hugeVal_len]; omega)

/-- The overflow behavior at the huge string value. -/
theorem spec_C6_witness :
    4294967296 ≤ (utf8Encode (dumps hugeVal)).length ∧ encode_config hugeVal = none :=
  ⟨by rw [hugeVal_len]; omega, spec_C6 hugeVal (by rw [hugeVal_len]; omega)⟩

/-- C7: missing argument — with fewer than two entries in argv the wrapper
prints the usage line, prints no token, and exits with code 1. -/
theorem spec_C7 (argv : List (List Char)) (h : argv.length < 2) :
    pyMain argv = ⟨[usageMsg], 1⟩ := by
  unfold pyMain
  rw [if_pos h]

/-- The missing-argument path with only the program name in argv. -/
theorem spec_C7_witness :
    ([("encode.py".toList)] : List (List Char)).length < 2 ∧
    pyMain [("encode.py".toList)] = ⟨[usageMsg], 1⟩ :=
  ⟨by decide, spec_C7 [("encode.py".toList)] (by decide)⟩

/-- C8: invalid JSON — when the argument is present but does not parse, the
wrapper prints exactly the fixed message, prints no token, and terminates
normally with exit code 0. -/
theorem spec_C8 (argv : List (List Char)) (h2 : 2 ≤ argv.length)
    (hbad : loads (argv.getD 1 []) = none) : pyMain argv = ⟨[invalidMsg], 0⟩ := by
  unfold pyMain
  rw [if_neg (by omega)]
  simp only [hbad]

/-- The invalid-JSON path at the argument string not json. -/
theorem spec_C8_witness :
    2 ≤ ([("encode.py".toList), ("not json".toList)] : List (List Char)).length ∧
    loads (([("encode.py".toList), ("not json".toList)] : List (List Char)).getD 1 []) = none ∧
    pyMain [("encode.py".toList), ("not json".toList)] = ⟨[invalidMsg], 0⟩ :=
  ⟨by decide, rfl, spec_C8 [("encode.py".toList), ("not json".toList)] (by decide) rfl⟩

/-- C9 (corrected): concrete canonicalization — the canonical text of the
one-entry object mapping a to 1 is the quoted 14-byte text, giving length
prefix bytes 00 00 00 0E; the empty object serializes to 2 bytes with prefix
bytes 00 00 00 02. -/
theorem spec_C9 :
    dumps (JVal.obj (JObj.cons ['a'] (JVal.int 1) JObj.nil)) =
      (("\x7b\n    \"a\": 1\n\x7d").toList) ∧
    (utf8Encode (dumps (JVal.obj (JObj.cons ['a'] (JVal.int 1) JObj.nil)))).length = 14 ∧
    toBytesBE4 14 = some [0, 0, 0, 14] ∧
    dumps (JVal.obj JObj.nil) = (("\x7b\x7d").toList) ∧
    (utf8Encode (dumps (JVal.obj JObj.nil))).length = 2 ∧
    toBytesBE4 2 = some [0, 0, 0, 2] := by
  refine ⟨rfl, rfl, ?_, rfl, rfl, ?_⟩ <;> decide

/-- The canonical text the claim itself quotes has 14 bytes, not 15, so the
length prefix is 00 00 00 0E, not 00 00 00 0F. -/
theorem spec_C9_counterexample :
    dumps (JVal.obj (JObj.cons ['a'] (JVal.int 1) JObj.nil)) =
      (("\x7b\n    \"a\": 1\n\x7d").toList) ∧
    (utf8Encode (dumps (JVal.obj (JObj.cons ['a'] (JVal.int 1) JObj.nil)))).length ≠ 15 ∧
    toBytesBE4 (utf8Encode (dumps (JVal.obj (JObj.cons ['a'] (JVal.int 1)
      JObj.nil)))).length ≠ some [0, 0, 0, 15] := by
  refine ⟨rfl, by decide, by decide⟩

/-- C10: extra arguments ignored — with two or more arguments only the first
is parsed and encoded; further arguments change neither the output nor the
exit code. -/
theorem spec_C10 (prog a : List Char) (extra : List (List Char)) :
    pyMain (prog :: a :: extra) = pyMain [prog, a] := by
  unfold pyMain
  rw [if_neg (by simp only [List.length_cons]; omega),
    if_neg (by simp only [List.length_cons, List.length_nil]; omega)]
  rfl
